import Mathlib

/-!
Verification development for the LogisticsTrack ROI engine
(`video_analyzer/src/roi_engine.py`, `video_analyzer/src/reference_point.py`).

Modelling conventions:
* Python floats (all of them clock readings, confidences or pixel-derived
  coordinates on which only `+ - * / <= <` are performed) are modelled as `ℚ`.
* Python `dict`s are insertion-ordered maps; they are modelled as association
  lists where updating an existing key rewrites it in place and a new key is
  appended at the end (`aupdate`), exactly the `dict` iteration-order contract.
* The track-state key, which the source encodes as the string
  `f"{track_id}:{roi_id}"` (injective on pairs, since the decimal rendering of
  an `int` contains no colon), is modelled directly as the pair
  `(track_id, roi_id)`.
* The Shapely geometry library is external to the repository; it is modelled
  from the spec as an abstract `GeoKernel` (see its doc string).  Every
  state-machine theorem is proved for an arbitrary kernel.
-/

set_option maxRecDepth 8000

namespace LogisticsTrack

/-! ## Definitions: the shallow embedding of the source, the abstract
geometry kernel, its concrete instances, the wellformedness predicates,
and the concrete fixtures evaluated by witnesses. -/

/-- `ReferencePoint` enum from `reference_point.py`. -/
inductive ReferencePoint where
  | bottom_center
  | centroid
  | top_center
deriving DecidableEq

/-- A bounding box `(x1, y1, x2, y2)` in pixel integers (`detector.py`). -/
abbrev BBox := Int × Int × Int × Int

/-- `compute_reference_point` from `reference_point.py`.  The source's trailing
`else` fallback (returning the bottom-center point) is unreachable because the
Python enum has exactly the three members matched here. -/
def compute_reference_point (bbox : BBox) (strategy : ReferencePoint) : ℚ × ℚ :=
  let x1 : ℚ := (bbox.1 : ℚ)
  let y1 : ℚ := (bbox.2.1 : ℚ)
  let x2 : ℚ := (bbox.2.2.1 : ℚ)
  let y2 : ℚ := (bbox.2.2.2 : ℚ)
  let cx : ℚ := (x1 + x2) / 2
  match strategy with
  | ReferencePoint.bottom_center => (cx, y2)
  | ReferencePoint.top_center => (cx, y1)
  | ReferencePoint.centroid => (cx, (y1 + y2) / 2)

/-- `Detection` dataclass from `detector.py`, restricted to the fields the ROI
engine reads (`track_id`, `confidence`, `bbox`; `class_id`/`class_name` are
carried along, the derived display-only fields `center`/`bottom_center` are
not consumed by any code modelled here). -/
structure Detection where
  track_id : Int
  class_id : Int
  class_name : String
  confidence : ℚ
  bbox : BBox
deriving DecidableEq

/-- Modelled from the spec: the external geometry primitive (the Shapely
library, which is not part of this repository).  A polygon is identified with
its vertex list; `contains` is the planar point-in-polygon test (boundary
behaviour implementation-defined per the spec), `is_valid` the validity
(simple-polygon) test and `buffer0` the zero-width buffering repair
(`polygon.buffer(0)`).  The engine's event logic is independent of the
kernel's behaviour, so theorems quantify over it. -/
structure GeoKernel where
  contains : List (ℚ × ℚ) → ℚ × ℚ → Bool
  is_valid : List (ℚ × ℚ) → Bool
  buffer0 : List (ℚ × ℚ) → List (ℚ × ℚ)

/-- `ROIDefinition` dataclass from `roi_engine.py`; `polygon` is the Shapely
polygon built by `__post_init__` (possibly repaired, see `mkROIDefinition`). -/
structure ROIDefinition where
  id : String
  name : String
  aisle_id : String
  camera_id : String
  points : List (ℚ × ℚ)
  reference_point : ReferencePoint
  parent_id : Option String
  is_active : Bool
  color : Int × Int × Int
  polygon : List (ℚ × ℚ)
deriving DecidableEq

/-- `ROIDefinition.__post_init__`: fewer than 3 points raises `ValueError`;
the polygon is built from the points and, when invalid, replaced by its
zero-width buffer.  No re-validation happens after the repair. -/
def mkROIDefinition (K : GeoKernel) (id name aisle_id camera_id : String)
    (points : List (ℚ × ℚ)) (reference_point : ReferencePoint)
    (parent_id : Option String) (is_active : Bool) (color : Int × Int × Int) :
    Except String ROIDefinition :=
  if points.length < 3 then
    Except.error "servono almeno 3 punti"
  else
    let poly := if K.is_valid points then points else K.buffer0 points
    Except.ok
      { id := id, name := name, aisle_id := aisle_id, camera_id := camera_id,
        points := points, reference_point := reference_point,
        parent_id := parent_id, is_active := is_active, color := color,
        polygon := poly }

/-- `TrackState` dataclass from `roi_engine.py` with its field defaults. -/
structure TrackState where
  track_id : Int
  roi_id : String
  is_inside : Bool := false
  entered_at : Option ℚ := none
  last_seen_at : Option ℚ := none
  confidence : ℚ := 0
  bbox : BBox := (0, 0, 0, 0)
deriving DecidableEq

/-- Python truthiness of the optional float `last_seen_at` (`None` and `0.0`
are both falsy). -/
def truthyTime : Option ℚ → Bool
  | none => false
  | some t => t ≠ 0

/-- `TrackState.dwell_seconds`.  The source falls back to a fresh
`time.monotonic()` reading when `last_seen_at` is falsy; that reading is the
`now` argument here. -/
def TrackState.dwell_seconds (s : TrackState) (now : ℚ) : ℚ :=
  match s.entered_at with
  | none => 0
  | some e =>
      let ref : ℚ :=
        match s.last_seen_at with
        | some l => if l ≠ 0 then l else now
        | none => now
      ref - e

/-- `ROIEvent` dataclass from `roi_engine.py`.  `reference_point_used` is kept
as the enum value (the source stores its `.value` string, a bijective
rendering). -/
structure ROIEvent where
  event_type : String
  roi_id : String
  roi_name : String
  aisle_id : String
  camera_id : String
  track_id : Int
  confidence : ℚ
  bbox : BBox
  reference_point_used : ReferencePoint
  timestamp : ℚ
  dwell_seconds : ℚ := 0
  parent_roi_id : Option String := none
deriving DecidableEq

/-- Lookup in an insertion-ordered association list (Python `dict` read). -/
def afind {κ α : Type} [DecidableEq κ] (k : κ) : List (κ × α) → Option α
  | [] => none
  | (k', v) :: t => if k' = k then some v else afind k t

/-- Write to an insertion-ordered association list (Python `dict` write):
an existing key keeps its position, a new key is appended. -/
def aupdate {κ α : Type} [DecidableEq κ] (k : κ) (v : α) : List (κ × α) → List (κ × α)
  | [] => [(k, v)]
  | (k', v') :: t => if k' = k then (k, v) :: t else (k', v') :: aupdate k v t

/-- The `_track_states` dict: key `(track_id, roi_id)` (the source's
`f"{track_id}:{roi_id}"` string) to `TrackState`. -/
abbrev Store := List ((Int × String) × TrackState)

/-- `ROIEngine.__init__`: the three instance dictionaries. -/
structure Engine where
  rois : List (String × ROIDefinition) := []
  track_states : Store := []
  dwell_thresholds : List (String × ℚ) := []

/-- `ROIEngine._state_key` (the pair stands for the `f"{track_id}:{roi_id}"`
string, an injective encoding of the pair). -/
def state_key (track_id : Int) (roi_id : String) : Int × String :=
  (track_id, roi_id)

/-- `ROIEngine._get_state`: return the state for the pair, creating and
inserting a fresh `Outside` state on first access.  Returns the state
together with the (possibly extended) store. -/
def get_state (st : Store) (track_id : Int) (roi_id : String) : TrackState × Store :=
  match afind (state_key track_id roi_id) st with
  | some s => (s, st)
  | none =>
      let s : TrackState := { track_id := track_id, roi_id := roi_id }
      (s, aupdate (state_key track_id roi_id) s st)

/-- `ROIEngine.add_roi`. -/
def add_roi (eng : Engine) (roi : ROIDefinition) (dwell_threshold_sec : ℚ) : Engine :=
  { eng with
    rois := aupdate roi.id roi eng.rois,
    dwell_thresholds :=
      if 0 < dwell_threshold_sec then
        aupdate roi.id dwell_threshold_sec eng.dwell_thresholds
      else eng.dwell_thresholds }

/-- `ROIEngine.roi_count`. -/
def Engine.roi_count (eng : Engine) : Nat := eng.rois.length

/-- `ROIEngine.active_rois`: values of the ROI dict, in insertion order,
filtered to the active ones. -/
def Engine.active_rois (eng : Engine) : List ROIDefinition :=
  (eng.rois.map Prod.snd).filter (fun r => r.is_active)

/-- `ROIEngine.get_children`. -/
def Engine.get_children (eng : Engine) (parent_id : String) : List ROIDefinition :=
  (eng.rois.map Prod.snd).filter (fun r => r.parent_id = some parent_id)

/-- `ROIEngine.reset`: clears tracking states only. -/
def Engine.reset (eng : Engine) : Engine :=
  { eng with track_states := [] }

/-- `ROIEngine.clear_all`: clears ROIs, states and thresholds. -/
def Engine.clear_all (eng : Engine) : Engine :=
  { eng with rois := [], track_states := [], dwell_thresholds := [] }

/-- One JSON object of the `"rois"` array of the configuration file, after
JSON parsing: each schema field is present or absent.  (Fields are typed per
the schema; JSON type errors are parsing mechanics outside the modelled
loader, which catches only `KeyError`/`ValueError`.) -/
structure ROIEntry where
  id : Option String
  name : Option String
  aisle_id : Option String
  camera_id : Option String
  points : Option (List (ℚ × ℚ))
  reference_point : Option String
  parent_id : Option String
  is_active : Option Bool
  color : Option (List Int)
  dwell_threshold_sec : Option ℚ

/-- The `ReferencePoint(ref_str)` enum constructor (raises `ValueError`,
caught with a fallback, when the string is not a member value). -/
def parseReferencePoint (s : String) : Option ReferencePoint :=
  if s = "bottom_center" then some ReferencePoint.bottom_center
  else if s = "centroid" then some ReferencePoint.centroid
  else if s = "top_center" then some ReferencePoint.top_center
  else none

/-- One iteration of the `for roi_data in rois_data` loop of
`ROIEngine.load_from_file`: an unknown reference-point string falls back to
bottom-center (warning only); a color list of length other than 3 falls back
to the default; a missing required field (`KeyError`) or fewer than 3 points
(`ValueError`) makes the entry fail.  On success returns the built
`ROIDefinition` and the entry's `dwell_threshold_sec` (default 0). -/
def loadEntry (K : GeoKernel) (e : ROIEntry) : Except String (ROIDefinition × ℚ) :=
  let ref_str := e.reference_point.getD "bottom_center"
  let ref_point := (parseReferencePoint ref_str).getD ReferencePoint.bottom_center
  let color : Int × Int × Int :=
    match e.color.getD [0, 255, 0] with
    | [a, b, c] => (a, b, c)
    | _ => (0, 255, 0)
  match e.id, e.name, e.aisle_id, e.camera_id, e.points with
  | some id, some name, some aisle, some cam, some pts =>
      match mkROIDefinition K id name aisle cam pts ref_point
          e.parent_id (e.is_active.getD true) color with
      | Except.ok roi => Except.ok (roi, e.dwell_threshold_sec.getD 0)
      | Except.error msg => Except.error msg
  | _, _, _, _, _ => Except.error "KeyError"

/-- One loop iteration of `ROIEngine.load_from_file` acting on the
accumulated (engine, loaded-count): a failing entry is logged and skipped, a
successful one is stored — `self._rois[roi.id] = roi` plus the positive
dwell threshold, exactly the body of `add_roi` — and counted. -/
def loadStep (K : GeoKernel) (acc : Engine × Nat) (e : ROIEntry) : Engine × Nat :=
  match loadEntry K e with
  | Except.ok r => (add_roi acc.1 r.1 r.2, acc.2 + 1)
  | Except.error _ => acc

/-- `ROIEngine.load_from_file`, after file reading and JSON parsing: each
entry is processed independently.  Returns the updated engine and the
`loaded` count the method returns; the total `len(rois_data)` appears only
in the summary log line. -/
def load_from_file (K : GeoKernel) (eng : Engine) (rois_data : List ROIEntry) :
    Engine × Nat :=
  rois_data.foldl (loadStep K) (eng, 0)

/-- An entry that survives `load_from_file`'s `except (KeyError, ValueError)`
guard: all required fields present and at least 3 points. -/
def entryWellFormed (e : ROIEntry) : Bool :=
  e.id.isSome && e.name.isSome && e.aisle_id.isSome && e.camera_id.isSome &&
    (match e.points with
     | some pts => decide (3 ≤ pts.length)
     | none => false)

/-- Helper to build the events of `roi_engine.py` (all three event kinds share
this constructor shape). -/
def mkEvent (etype : String) (roi : ROIDefinition) (track_id : Int)
    (confidence : ℚ) (bbox : BBox) (timestamp dwell : ℚ) : ROIEvent :=
  { event_type := etype, roi_id := roi.id, roi_name := roi.name,
    aisle_id := roi.aisle_id, camera_id := roi.camera_id, track_id := track_id,
    confidence := confidence, bbox := bbox,
    reference_point_used := roi.reference_point, timestamp := timestamp,
    dwell_seconds := dwell, parent_roi_id := roi.parent_id }

/-- Body of the inner `for roi in self.active_rois` loop of
`ROIEngine.process_detections`: the four-way transition on
(containment, `state.is_inside`).  Returns the updated store and the events
this (detection, ROI) step appends.  In every branch the entry for the pair's
key ends up present (the source's `_get_state` inserts it even on the no-op
branch), so the write-back is a single `aupdate` with the final state. -/
def stepDetRoi (K : GeoKernel) (thr : List (String × ℚ)) (now now_epoch : ℚ)
    (det : Detection) (roi : ROIDefinition) (st : Store) : Store × List ROIEvent :=
  let ref_point := compute_reference_point det.bbox roi.reference_point
  let is_inside := K.contains roi.polygon ref_point
  let s := (get_state st det.track_id roi.id).1
  let k := state_key det.track_id roi.id
  if is_inside && !s.is_inside then
    let s' := { s with is_inside := true, entered_at := some now,
                       last_seen_at := some now, confidence := det.confidence,
                       bbox := det.bbox }
    (aupdate k s' st,
     [mkEvent "roi_enter" roi det.track_id det.confidence det.bbox now_epoch 0])
  else if is_inside && s.is_inside then
    let s' := { s with last_seen_at := some now, confidence := det.confidence,
                       bbox := det.bbox }
    let devs : List ROIEvent :=
      match afind roi.id thr with
      | some threshold =>
          let dwell := s'.dwell_seconds now
          if threshold ≤ dwell ∧ dwell - threshold < 1 / 5 then
            [mkEvent "dwell_time" roi det.track_id det.confidence det.bbox now_epoch dwell]
          else []
      | none => []
    (aupdate k s' st, devs)
  else if !is_inside && s.is_inside then
    let dwell := s.dwell_seconds now
    let s' := { s with is_inside := false, entered_at := none, last_seen_at := none }
    (aupdate k s' st,
     [mkEvent "roi_exit" roi det.track_id det.confidence det.bbox now_epoch dwell])
  else
    (aupdate k s st, [])

/-- Body of the outer `for det in detections` loop of
`ROIEngine.process_detections`: a negative (untracked) `track_id` is skipped
entirely, otherwise every active ROI is stepped. -/
def procDet (K : GeoKernel) (thr : List (String × ℚ)) (now now_epoch : ℚ)
    (activeRois : List ROIDefinition) (acc : Store × List ROIEvent)
    (det : Detection) : Store × List ROIEvent :=
  if det.track_id < 0 then acc
  else
    activeRois.foldl
      (fun a roi =>
        let r := stepDetRoi K thr now now_epoch det roi a.1
        (r.1, a.2 ++ r.2))
      acc

/-- The `seen_track_ids` set collected by `process_detections` (membership
list: all non-negative track ids of the frame's detections). -/
def seenTrackIds (dets : List Detection) : List Int :=
  (dets.filter (fun d => !(d.track_id < 0))).map (fun d => d.track_id)

/-- `ROIEngine._handle_lost_tracks`.  The source iterates the store once,
collecting exit events plus a list of keys to delete, and deletes those keys
afterwards; since dict keys are unique and each entry's decision reads only
that entry, this is the same single structural pass.  (The source also
zeroes the fields of a state it is about to delete; the mutation is
invisible once the entry is deleted.)  `now` is the fresh `time.monotonic()`
reading taken inside the method; the lost tolerance is the literal 1.0s. -/
def handle_lost_tracks (rois : List (String × ROIDefinition)) (seen : List Int)
    (now now_epoch : ℚ) : Store → Store × List ROIEvent
  | [] => ([], [])
  | (k, s) :: t =>
    let r := handle_lost_tracks rois seen now now_epoch t
    if !s.is_inside then ((k, s) :: r.1, r.2)
    else if seen.contains s.track_id then ((k, s) :: r.1, r.2)
    else if truthyTime s.last_seen_at ∧ now - s.last_seen_at.getD 0 < 1 then
      ((k, s) :: r.1, r.2)
    else
      match afind s.roi_id rois with
      | none => (r.1, r.2)
      | some roi =>
          let dwell := s.dwell_seconds now
          (r.1, mkEvent "roi_exit" roi s.track_id s.confidence s.bbox now_epoch dwell :: r.2)

/-- `ROIEngine.process_detections`.  `now` is the `time.monotonic()` reading
taken at the top of the method, `now_reap` the second reading taken inside
`_handle_lost_tracks`, and `now_epoch` the wall-clock `time.time()` used for
event timestamps. -/
def process_detections (K : GeoKernel) (eng : Engine) (dets : List Detection)
    (now now_reap now_epoch : ℚ) : Engine × List ROIEvent :=
  let seen := seenTrackIds dets
  let p := dets.foldl (procDet K eng.dwell_thresholds now now_epoch eng.active_rois)
    (eng.track_states, [])
  let q := handle_lost_tracks eng.rois seen now_reap now_epoch p.1
  ({ eng with track_states := q.1 }, p.2 ++ q.2)

/-- One driver-loop invocation of `process_detections`: the frame's
detections and the three clock readings of that call. -/
structure FrameCall where
  dets : List Detection
  now : ℚ
  now_reap : ℚ
  now_epoch : ℚ

/-- A sequence of `process_detections` calls on a single engine, with all
emitted events concatenated in order. -/
def runCalls (K : GeoKernel) : Engine → List FrameCall → Engine × List ROIEvent
  | eng, [] => (eng, [])
  | eng, c :: cs =>
    let r := process_detections K eng c.dets c.now c.now_reap c.now_epoch
    let rest := runCalls K r.1 cs
    (rest.1, r.2 ++ rest.2)

/-- One edge of the even-odd ray-crossing point-in-polygon test: does the
edge `a`–`b` cross the horizontal ray to the right of `p`? -/
def edgeCrossesRay (p a b : ℚ × ℚ) : Bool :=
  (decide (p.2 < a.2) != decide (p.2 < b.2)) &&
    decide (p.1 < a.1 + (b.1 - a.1) * (p.2 - a.2) / (b.2 - a.2))

/-- The edge list of a polygon given by its vertex ring. -/
def polygonEdges (poly : List (ℚ × ℚ)) : List ((ℚ × ℚ) × (ℚ × ℚ)) :=
  poly.zip (poly.drop 1 ++ poly.take 1)

/-- Standard even-odd point-in-polygon test. -/
def pointInPolygon (poly : List (ℚ × ℚ)) (p : ℚ × ℚ) : Bool :=
  (polygonEdges poly).foldl
    (fun acc e => if edgeCrossesRay p e.1 e.2 then !acc else acc) false

/-- Twice the signed area of triangle `a b c` (orientation test). -/
def orient (a b c : ℚ × ℚ) : ℚ :=
  (b.1 - a.1) * (c.2 - a.2) - (b.2 - a.2) * (c.1 - a.1)

/-- Do segments `a`–`b` and `c`–`d` cross properly (in their interiors)? -/
def properCross (a b c d : ℚ × ℚ) : Bool :=
  decide (orient a b c * orient a b d < 0) && decide (orient c d a * orient c d b < 0)

/-- Does some pair of polygon edges cross properly (self-intersection)? -/
def selfIntersecting (poly : List (ℚ × ℚ)) : Bool :=
  (polygonEdges poly).any fun e1 =>
    (polygonEdges poly).any fun e2 => properCross e1.1 e1.2 e2.1 e2.2

/-- A concrete geometry kernel: even-odd containment, every polygon valid,
identity repair. -/
def stdKernel : GeoKernel :=
  { contains := pointInPolygon, is_valid := fun _ => true, buffer0 := fun l => l }

/-- A concrete geometry kernel whose validity test rejects properly
self-intersecting polygons and whose zero-width buffer leaves the polygon
unchanged — a repair that fails to make it valid. -/
def strictKernel : GeoKernel :=
  { contains := pointInPolygon, is_valid := fun poly => !selfIntersecting poly,
    buffer0 := fun l => l }

/-- A 10×10 axis-aligned square zone polygon. -/
def sq10 : List (ℚ × ℚ) := [(0, 0), (10, 0), (10, 10), (0, 10)]

/-- A properly self-intersecting (bowtie) vertex ring. -/
def bowtie : List (ℚ × ℚ) := [(0, 0), (2, 2), (2, 0), (0, 2)]

/-- A well-formed configuration entry for zone `Z1` (square polygon, all
optional fields absent). -/
def goodEntry : ROIEntry :=
  { id := some "Z1", name := some "Zone 1", aisle_id := some "A1",
    camera_id := some "C1", points := some sq10, reference_point := none,
    parent_id := none, is_active := none, color := none,
    dwell_threshold_sec := none }

/-- A malformed entry: required field `id` missing. -/
def badEntry : ROIEntry := { goodEntry with id := none }

/-- The bowtie-polygon entry for zone `Z2`. -/
def bowtieEntry : ROIEntry :=
  { goodEntry with id := some "Z2", points := some bowtie }

/-- The zone definition `loadEntry` builds from `goodEntry` (under a kernel
accepting the square as valid). -/
def roiZ1 : ROIDefinition :=
  { id := "Z1", name := "Zone 1", aisle_id := "A1", camera_id := "C1",
    points := sq10, reference_point := ReferencePoint.bottom_center,
    parent_id := none, is_active := true, color := (0, 255, 0), polygon := sq10 }

/-- A different definition carrying the same id `Z1`. -/
def roiZ1b : ROIDefinition := { roiZ1 with name := "Zone 1 replacement" }

/-- An engine whose registry already holds `Z1`. -/
def eng1 : Engine :=
  { rois := [("Z1", roiZ1)], track_states := [], dwell_thresholds := [] }

/-- The C7 relation on a single `TrackState`: `entered_at` is set exactly
while `is_inside` holds. -/
def stateConsistent (s : TrackState) : Prop :=
  s.entered_at.isSome = s.is_inside

/-- Timestamp wellformedness of one state at time horizon `t`: both
timestamps are set exactly while the state is inside, and in that case the
entry time is positive and at most the last-seen time, which is at most
`t`.  Every store reachable by `process_detections` calls with positive,
non-decreasing monotonic clock readings satisfies this at the horizon of
the last reading. -/
def TSWF (t : ℚ) (s : TrackState) : Prop :=
  s.entered_at.isSome = s.is_inside ∧ s.last_seen_at.isSome = s.is_inside ∧
  ∀ e l, s.entered_at = some e → s.last_seen_at = some l → 0 < e ∧ e ≤ l ∧ l ≤ t

/-- A concrete state that has been inside `Z1` since monotonic time 1, last
seen at 2. -/
def insideState : TrackState :=
  { track_id := 7, roi_id := "Z1", is_inside := true, entered_at := some 1,
    last_seen_at := some 2, confidence := 1, bbox := (4, 4, 6, 6) }

/-- A store holding just `insideState` for the pair (7, Z1). -/
def stInside : Store := [((7, "Z1"), insideState)]

/-- A detection of tracker 7 whose bottom-center (21, 22) lies outside the
square `sq10`. -/
def detOut : Detection :=
  { track_id := 7, class_id := 0, class_name := "forklift", confidence := 1,
    bbox := (20, 20, 22, 22) }

/-- A detection of tracker 7 whose bottom-center (5, 6) lies inside `sq10`. -/
def detIn : Detection :=
  { track_id := 7, class_id := 0, class_name := "forklift", confidence := 1,
    bbox := (4, 4, 6, 6) }

/-- The explicit Exit event produced when `detOut` leaves `Z1` at monotonic
time 5 (wall clock 100), with dwell `2 - 1 = 1`. -/
def evC4 : ROIEvent := mkEvent "roi_exit" roiZ1 7 1 (20, 20, 22, 22) 100 1

/-- The engine holding `Z1` with tracker 7 currently inside. -/
def engC4 : Engine :=
  { rois := [("Z1", roiZ1)], track_states := stInside, dwell_thresholds := [] }

/-- Registry wellformedness: unique zone ids and every definition stored
under its own id — true of every registry built by `add_roi` /
`load_from_file`, which write `self._rois[roi.id] = roi`. -/
def RegWF (rois : List (String × ROIDefinition)) : Prop :=
  (rois.map Prod.fst).Nodup ∧ ∀ p ∈ rois, p.1 = p.2.id

/-- Store wellformedness relative to a registry: unique keys, each state
keyed by its own `(track_id, roi_id)`, non-negative track id, and a ROI id
that resolves in the registry. -/
def StoreWF (rois : List (String × ROIDefinition)) (st : Store) : Prop :=
  (st.map Prod.fst).Nodup ∧
  ∀ p ∈ st, p.1 = (p.2.track_id, p.2.roi_id) ∧ 0 ≤ p.2.track_id ∧
    (afind p.2.roi_id rois).isSome = true

/-- The suffix of one `process_detections` call's event list contributed by
`_handle_lost_tracks`: the lost-Exit events of that call. -/
def lostExitEvents (K : GeoKernel) (eng : Engine) (dets : List Detection)
    (now nowR nE : ℚ) : List ROIEvent :=
  (handle_lost_tracks eng.rois (seenTrackIds dets) nowR nE
    (dets.foldl (procDet K eng.dwell_thresholds now nE eng.active_rois)
      (eng.track_states, [])).1).2

/-- The dwell-threshold map only ever holds positive thresholds (`add_roi`
and `load_from_file` insert a threshold only when it is `> 0`). -/
def ThrWF (thr : List (String × ℚ)) : Prop := ∀ p ∈ thr, 0 < p.2

/-- The engine with zone `Z1` and a 2.0 s dwell threshold. -/
def engC3 : Engine :=
  { rois := [("Z1", roiZ1)], track_states := [], dwell_thresholds := [("Z1", 2)] }

/-- Three frames in which tracker 7 stays inside `Z1` at monotonic times
1, 3 and 3.1. -/
def callsC3 : List FrameCall :=
  [{ dets := [detIn], now := 1, now_reap := 1, now_epoch := 100 },
   { dets := [detIn], now := 3, now_reap := 3, now_epoch := 102 },
   { dets := [detIn], now := 31 / 10, now_reap := 31 / 10, now_epoch := 103 }]

/-- The `dwell_time` event emitted when tracker 7 (inside since 1, last seen
2) is seen again at monotonic time 3 with threshold 2. -/
def evC3 : ROIEvent := mkEvent "dwell_time" roiZ1 7 1 (4, 4, 6, 6) 102 2

/-- Classify an event as the pair's Enter (`some true`) or Exit
(`some false`); other pairs' events and `dwell_time` events are ignored. -/
def pairEventKind (tid : Int) (rid : String) (ev : ROIEvent) : Option Bool :=
  if ev.track_id = tid ∧ ev.roi_id = rid then
    if ev.event_type = "roi_enter" then some true
    else if ev.event_type = "roi_exit" then some false
    else none
  else none

/-- The pair's Enter/Exit subsequence of an event list (`true` = Enter). -/
def pairTrace (tid : Int) (rid : String) (evs : List ROIEvent) : List Bool :=
  evs.filterMap (pairEventKind tid rid)

/-- Run the Enter/Exit alternation automaton from an inside-flag: `some b`
means the word is a strict alternation (an Exit only after an unmatched
Enter, never two Enters in a row) ending at inside-flag `b`; `none` means
the pairing discipline is violated. -/
def altRun : Bool → List Bool → Option Bool
  | b, [] => some b
  | b, e :: rest => if e = !b then altRun e rest else none

/-- Whether the store currently marks the pair inside. -/
def pairInside (st : Store) (tid : Int) (rid : String) : Bool :=
  match afind (state_key tid rid) st with
  | some s => s.is_inside
  | none => false

/-! ## Theorems. -/

theorem afind_aupdate_self {κ α : Type} [DecidableEq κ] (k : κ) (v : α)
    (l : List (κ × α)) : afind k (aupdate k v l) = some v := by
  induction l with
  | nil => simp [afind, aupdate]
  | cons h t ih =>
      obtain ⟨k', v'⟩ := h
      by_cases hk : k' = k <;> simp [afind, aupdate, hk, ih]

theorem afind_aupdate_ne {κ α : Type} [DecidableEq κ] {k k' : κ} (v : α)
    (l : List (κ × α)) (h : k' ≠ k) :
    afind k' (aupdate k v l) = afind k' l := by
  have hne : ¬(k = k') := fun hh => h hh.symm
  induction l with
  | nil => simp [afind, aupdate, hne]
  | cons p t ih =>
      obtain ⟨k₀, v₀⟩ := p
      by_cases hk : k₀ = k
      · subst hk
        simp [afind, aupdate, hne]
      · simp only [aupdate, if_neg hk, afind]
        by_cases hk' : k₀ = k' <;> simp [hk', ih]

theorem aupdate_map_fst_of_mem {κ α : Type} [DecidableEq κ] {k : κ} (v : α)
    {l : List (κ × α)} (h : k ∈ l.map Prod.fst) :
    (aupdate k v l).map Prod.fst = l.map Prod.fst := by
  induction l with
  | nil => simp at h
  | cons p t ih =>
      obtain ⟨k₀, v₀⟩ := p
      by_cases hk : k₀ = k
      · simp [aupdate, hk]
      · have ht : k ∈ t.map Prod.fst := by
          rcases List.mem_map.mp h with ⟨q, hq, hfst⟩
          rcases List.mem_cons.mp hq with rfl | hqt
          · exact absurd hfst hk
          · exact List.mem_map.mpr ⟨q, hqt, hfst⟩
        simp [aupdate, hk, ih ht]

theorem aupdate_map_fst_of_not_mem {κ α : Type} [DecidableEq κ] {k : κ} (v : α)
    {l : List (κ × α)} (h : k ∉ l.map Prod.fst) :
    (aupdate k v l).map Prod.fst = l.map Prod.fst ++ [k] := by
  induction l with
  | nil => simp [aupdate]
  | cons p t ih =>
      obtain ⟨k₀, v₀⟩ := p
      simp only [List.map_cons, List.mem_cons] at h
      push_neg at h
      have hne : ¬(k₀ = k) := fun hh => h.1 hh.symm
      simp [aupdate, hne, ih h.2]

theorem mem_aupdate {κ α : Type} [DecidableEq κ] {k : κ} {v : α}
    {l : List (κ × α)} {p : κ × α} (h : p ∈ aupdate k v l) :
    p = (k, v) ∨ p ∈ l := by
  induction l with
  | nil => simpa [aupdate] using h
  | cons q t ih =>
      obtain ⟨k₀, v₀⟩ := q
      by_cases hk : k₀ = k
      · simp only [aupdate, if_pos hk] at h
        rcases List.mem_cons.mp h with rfl | ht
        · exact Or.inl rfl
        · exact Or.inr (List.mem_cons.mpr (Or.inr ht))
      · simp only [aupdate, if_neg hk] at h
        rcases List.mem_cons.mp h with rfl | ht
        · exact Or.inr (List.mem_cons.mpr (Or.inl rfl))
        · rcases ih ht with hl | hr
          · exact Or.inl hl
          · exact Or.inr (List.mem_cons.mpr (Or.inr hr))

theorem nodup_aupdate {κ α : Type} [DecidableEq κ] (k : κ) (v : α)
    {l : List (κ × α)} (h : (l.map Prod.fst).Nodup) :
    ((aupdate k v l).map Prod.fst).Nodup := by
  by_cases hm : k ∈ l.map Prod.fst
  · rw [aupdate_map_fst_of_mem v hm]; exact h
  · rw [aupdate_map_fst_of_not_mem v hm]
    refine List.Nodup.append h (List.nodup_singleton k) ?_
    intro a ha hb
    rw [List.mem_singleton] at hb
    subst hb
    exact hm ha

theorem afind_eq_none_iff {κ α : Type} [DecidableEq κ] (k : κ) (l : List (κ × α)) :
    afind k l = none ↔ k ∉ l.map Prod.fst := by
  induction l with
  | nil => simp [afind]
  | cons p t ih =>
      obtain ⟨k₀, v₀⟩ := p
      by_cases hk : k₀ = k
      · subst hk
        simp [afind]
      · have hne : ¬(k = k₀) := fun hh => hk hh.symm
        simp [afind, hk, ih, hne]

theorem afind_mem {κ α : Type} [DecidableEq κ] {k : κ} {v : α}
    {l : List (κ × α)} (h : afind k l = some v) : (k, v) ∈ l := by
  induction l with
  | nil => simp [afind] at h
  | cons p t ih =>
      obtain ⟨k₀, v₀⟩ := p
      by_cases hk : k₀ = k
      · subst hk
        simp [afind] at h
        simp [h]
      · simp only [afind, if_neg hk] at h
        exact List.mem_cons.mpr (Or.inr (ih h))

theorem filter_key_eq_nil {κ α : Type} [DecidableEq κ] {k : κ}
    {l : List (κ × α)} (h : k ∉ l.map Prod.fst) :
    l.filter (fun p => p.1 = k) = [] := by
  induction l with
  | nil => rfl
  | cons p t ih =>
      obtain ⟨k₀, v₀⟩ := p
      simp only [List.map_cons, List.mem_cons] at h
      push_neg at h
      have hne : ¬(k₀ = k) := fun hh => h.1 hh.symm
      simp [List.filter, hne, ih h.2]

theorem filter_key_aupdate {κ α : Type} [DecidableEq κ] {k : κ} (v : α)
    {l : List (κ × α)} (hnd : (l.map Prod.fst).Nodup) (h : k ∈ l.map Prod.fst) :
    (aupdate k v l).filter (fun p => p.1 = k) = [(k, v)] := by
  induction l with
  | nil => simp at h
  | cons p t ih =>
      obtain ⟨k₀, v₀⟩ := p
      simp only [List.map_cons, List.nodup_cons] at hnd
      by_cases hk : k₀ = k
      · subst hk
        have : k₀ ∉ t.map Prod.fst := hnd.1
        simp [aupdate, List.filter, filter_key_eq_nil this]
      · have ht : k ∈ t.map Prod.fst := by
          rcases List.mem_map.mp h with ⟨q, hq, hfst⟩
          rcases List.mem_cons.mp hq with rfl | hqt
          · exact absurd hfst hk
          · exact List.mem_map.mpr ⟨q, hqt, hfst⟩
        simp [aupdate, hk, List.filter, ih hnd.2 ht]

theorem loadEntry_ok_of_wf (K : GeoKernel) (e : ROIEntry)
    (h : entryWellFormed e = true) : ∃ r, loadEntry K e = Except.ok r := by
  obtain ⟨i, n, a, c, p, rp, pa, ac, co, dw⟩ := e
  simp only [entryWellFormed, Bool.and_eq_true] at h
  obtain ⟨⟨⟨⟨hi, hn⟩, ha⟩, hc⟩, hp⟩ := h
  obtain ⟨iv, rfl⟩ := Option.isSome_iff_exists.mp hi
  obtain ⟨nv, rfl⟩ := Option.isSome_iff_exists.mp hn
  obtain ⟨av, rfl⟩ := Option.isSome_iff_exists.mp ha
  obtain ⟨cv, rfl⟩ := Option.isSome_iff_exists.mp hc
  cases p with
  | none => simp at hp
  | some pts =>
      have hlen : ¬(pts.length < 3) := by
        simp only [decide_eq_true_eq] at hp
        omega
      simp only [loadEntry, mkROIDefinition, if_neg hlen]
      exact ⟨_, rfl⟩

theorem loadEntry_ok_elim {K : GeoKernel} {e : ROIEntry} {roi : ROIDefinition}
    {d : ℚ} (h : loadEntry K e = Except.ok (roi, d)) :
    e.id = some roi.id ∧ e.name = some roi.name ∧
    e.aisle_id = some roi.aisle_id ∧ e.camera_id = some roi.camera_id ∧
    e.points = some roi.points ∧ 3 ≤ roi.points.length ∧
    roi.polygon = (if K.is_valid roi.points then roi.points
                   else K.buffer0 roi.points) ∧
    d = e.dwell_threshold_sec.getD 0 := by
  obtain ⟨i, n, a, c, p, rp, pa, ac, co, dw⟩ := e
  cases i <;> cases n <;> cases a <;> cases c <;> cases p <;>
    simp only [loadEntry] at h <;> try exact absurd h (by simp)
  rename_i pts
  by_cases hlen : pts.length < 3
  · rw [mkROIDefinition, if_pos hlen] at h
    exact absurd h (by simp)
  · rw [mkROIDefinition, if_neg hlen] at h
    simp only [Except.ok.injEq, Prod.mk.injEq] at h
    obtain ⟨hroi, hd⟩ := h
    subst hroi
    exact ⟨rfl, rfl, rfl, rfl, rfl, by show 3 ≤ pts.length; omega, rfl, hd.symm⟩

theorem loadEntry_ok_wf {K : GeoKernel} {e : ROIEntry} {r : ROIDefinition × ℚ}
    (h : loadEntry K e = Except.ok r) : entryWellFormed e = true := by
  obtain ⟨roi, d⟩ := r
  obtain ⟨h1, h2, h3, h4, h5, h6, _, _⟩ := loadEntry_ok_elim h
  simp [entryWellFormed, h1, h2, h3, h4, h5, h6]

theorem loadEntry_error_of_not_wf (K : GeoKernel) (e : ROIEntry)
    (h : entryWellFormed e = false) : ∃ m, loadEntry K e = Except.error m := by
  cases hle : loadEntry K e with
  | ok r => exact absurd (loadEntry_ok_wf hle) (by simp [h])
  | error m => exact ⟨m, rfl⟩

theorem load_count_aux (K : GeoKernel) (entries : List ROIEntry) :
    ∀ eng n, (entries.foldl (loadStep K) (eng, n)).2
      = n + (entries.filter (fun e => entryWellFormed e)).length := by
  induction entries with
  | nil => intro eng n; simp
  | cons e t ih =>
      intro eng n
      by_cases h : entryWellFormed e = true
      · obtain ⟨r, hr⟩ := loadEntry_ok_of_wf K e h
        simp only [List.foldl_cons, loadStep, hr, List.filter_cons, h, if_pos]
        rw [ih]
        simp
        omega
      · have h' : entryWellFormed e = false := by
          simpa using h
        obtain ⟨m, hm⟩ := loadEntry_error_of_not_wf K e h'
        simp only [List.foldl_cons, loadStep, hm, List.filter_cons, h']
        rw [ih]
        simp

/-- C8: `compute_reference_point` is a pure Lean function (determinism and
absence of side effects are intrinsic); on any bounding box `(x1,y1,x2,y2)`
with ordered corners (`y1 ≤ y2`), bottom-center yields (midpoint of the
x-span, maximum y), top-center (midpoint of the x-span, minimum y), and
centroid the bbox center. -/
theorem C8_reference_point (x1 y1 x2 y2 : Int) (h : y1 ≤ y2) :
    compute_reference_point (x1, y1, x2, y2) ReferencePoint.bottom_center
      = (((x1 : ℚ) + (x2 : ℚ)) / 2, max ((y1 : ℚ)) ((y2 : ℚ))) ∧
    compute_reference_point (x1, y1, x2, y2) ReferencePoint.top_center
      = (((x1 : ℚ) + (x2 : ℚ)) / 2, min ((y1 : ℚ)) ((y2 : ℚ))) ∧
    compute_reference_point (x1, y1, x2, y2) ReferencePoint.centroid
      = (((x1 : ℚ) + (x2 : ℚ)) / 2, ((y1 : ℚ) + (y2 : ℚ)) / 2) := by
  have hq : (y1 : ℚ) ≤ (y2 : ℚ) := by exact_mod_cast h
  refine ⟨?_, ?_, rfl⟩
  · simp [compute_reference_point, max_eq_right hq]
  · simp [compute_reference_point, min_eq_left hq]

/-- Witness for C8 at the concrete box (0, 1, 4, 7). -/
theorem C8_witness :
    compute_reference_point (0, 1, 4, 7) ReferencePoint.bottom_center
      = ((((0 : Int) : ℚ) + ((4 : Int) : ℚ)) / 2, max (((1 : Int) : ℚ)) (((7 : Int) : ℚ))) ∧
    compute_reference_point (0, 1, 4, 7) ReferencePoint.top_center
      = ((((0 : Int) : ℚ) + ((4 : Int) : ℚ)) / 2, min (((1 : Int) : ℚ)) (((7 : Int) : ℚ))) ∧
    compute_reference_point (0, 1, 4, 7) ReferencePoint.centroid
      = ((((0 : Int) : ℚ) + ((4 : Int) : ℚ)) / 2, (((1 : Int) : ℚ) + ((7 : Int) : ℚ)) / 2) :=
  C8_reference_point 0 1 4 7 (by decide)

theorem procDet_untracked (K : GeoKernel) (thr : List (String × ℚ)) (now nE : ℚ)
    (rois : List ROIDefinition) (acc : Store × List ROIEvent) (det : Detection)
    (h : det.track_id < 0) : procDet K thr now nE rois acc det = acc := by
  simp [procDet, h]

theorem foldl_procDet_filter (K : GeoKernel) (thr : List (String × ℚ)) (now nE : ℚ)
    (rois : List ROIDefinition) (dets : List Detection) :
    ∀ acc, dets.foldl (procDet K thr now nE rois) acc
      = (dets.filter (fun d => !(d.track_id < 0))).foldl (procDet K thr now nE rois) acc := by
  induction dets with
  | nil => intro acc; rfl
  | cons d t ih =>
      intro acc
      by_cases h : d.track_id < 0
      · rw [List.foldl_cons, procDet_untracked K thr now nE rois acc d h, ih]
        have hf : (List.filter (fun d => !(d.track_id < 0)) (d :: t))
            = List.filter (fun d => !(d.track_id < 0)) t := by
          simp [List.filter_cons, h]
        rw [hf]
      · have hf : (List.filter (fun d => !(d.track_id < 0)) (d :: t))
            = d :: List.filter (fun d => !(d.track_id < 0)) t := by
          simp [List.filter_cons, h]
        rw [hf, List.foldl_cons, List.foldl_cons,
          ih (procDet K thr now nE rois acc d)]

theorem seenTrackIds_filter (dets : List Detection) :
    seenTrackIds (dets.filter (fun d => !(d.track_id < 0))) = seenTrackIds dets := by
  simp [seenTrackIds, List.filter_filter]

/-- C9: detections carrying a negative (untracked) `track_id` are ignored
entirely by `process_detections`: a call on any detection list returns
exactly the same engine state and event list as the call on that list with
the untracked entries removed — so they create no `TrackState` entries, emit
no events, change no existing state, and never enter the seen-id set used by
the lost-track reaper. -/
theorem C9_untracked_ignored (K : GeoKernel) (eng : Engine) (dets : List Detection)
    (now now_reap now_epoch : ℚ) :
    process_detections K eng dets now now_reap now_epoch
      = process_detections K eng (dets.filter (fun d => !(d.track_id < 0)))
          now now_reap now_epoch := by
  simp only [process_detections, seenTrackIds_filter]
  rw [foldl_procDet_filter]

/-- C5 counterexample: `load_from_file` does not return the pair
(loaded, total): its result on a document with 1 well-formed entry and on a
document with the same entry plus 1 malformed entry is the same count 1,
while the claimed pairs (N, N + M) for the two documents — (1, 1) and
(1, 2) — differ.  The total `N + M` appears only in a log line. -/
theorem C5_cex_returns_count_only :
    entryWellFormed goodEntry = true ∧ entryWellFormed badEntry = false ∧
    (load_from_file stdKernel ⟨[], [], []⟩ [goodEntry]).2
      = (load_from_file stdKernel ⟨[], [], []⟩ [goodEntry, badEntry]).2 ∧
    (1, ([goodEntry] : List ROIEntry).length)
      ≠ (1, ([goodEntry, badEntry] : List ROIEntry).length) := by
  decide

/-- C5 amended: `load_from_file` returns the count of successfully added
entries — exactly the number N of well-formed entries of the document, every
malformed entry being skipped without aborting the loop (the total N + M is
only logged, not returned). -/
theorem C5_load_counts (K : GeoKernel) (eng : Engine) (entries : List ROIEntry) :
    (load_from_file K eng entries).2
      = (entries.filter (fun e => entryWellFormed e)).length := by
  have h := load_count_aux K entries eng 0
  simpa [load_from_file] using h

theorem aupdate_length_of_mem {κ α : Type} [DecidableEq κ] {k : κ} (v : α)
    {l : List (κ × α)} (h : k ∈ l.map Prod.fst) :
    (aupdate k v l).length = l.length := by
  have h2 := congrArg List.length (aupdate_map_fst_of_mem v h)
  simpa using h2

/-- C10: storing a zone under an identifier already present (via `add_roi`
or a load entry) replaces the previous definition: the registry afterwards
holds exactly one entry under that identifier — the newer definition —
`roi_count` does not grow, and `load_from_file` still counts the duplicate
entry as loaded. -/
theorem C10_duplicate_id_replaces (eng : Engine) (roi : ROIDefinition) (d : ℚ)
    (K : GeoKernel) (e : ROIEntry) (roi' : ROIDefinition) (dsec : ℚ)
    (hnd : (eng.rois.map Prod.fst).Nodup)
    (hmem : roi.id ∈ eng.rois.map Prod.fst)
    (he : loadEntry K e = Except.ok (roi', dsec))
    (hmem' : roi'.id ∈ eng.rois.map Prod.fst) :
    afind roi.id (add_roi eng roi d).rois = some roi ∧
    ((add_roi eng roi d).rois.filter (fun p => p.1 = roi.id)).length = 1 ∧
    (add_roi eng roi d).roi_count = eng.roi_count ∧
    (load_from_file K eng [e]).2 = 1 ∧
    (load_from_file K eng [e]).1.roi_count = eng.roi_count ∧
    afind roi'.id (load_from_file K eng [e]).1.rois = some roi' := by
  refine ⟨afind_aupdate_self _ _ _, ?_, ?_, ?_, ?_, ?_⟩
  · show ((aupdate roi.id roi eng.rois).filter (fun p => p.1 = roi.id)).length = 1
    rw [filter_key_aupdate roi hnd hmem]
    rfl
  · show (aupdate roi.id roi eng.rois).length = eng.rois.length
    exact aupdate_length_of_mem roi hmem
  · simp [load_from_file, loadStep, he]
  · simp only [load_from_file, List.foldl_cons, List.foldl_nil, loadStep, he]
    show (add_roi eng roi' dsec).rois.length = eng.rois.length
    exact aupdate_length_of_mem roi' hmem'
  · simp only [load_from_file, List.foldl_cons, List.foldl_nil, loadStep, he]
    show afind roi'.id (add_roi eng roi' dsec).rois = some roi'
    exact afind_aupdate_self _ _ _

/-- Witness for C10: the engine already holding `Z1` receives a replacement
definition `roiZ1b` under the same id, and re-loads `goodEntry` (also id
`Z1`). -/
theorem C10_witness :
    afind "Z1" (add_roi eng1 roiZ1b 0).rois = some roiZ1b ∧
    ((add_roi eng1 roiZ1b 0).rois.filter (fun p => p.1 = "Z1")).length = 1 ∧
    (add_roi eng1 roiZ1b 0).roi_count = eng1.roi_count ∧
    (load_from_file stdKernel eng1 [goodEntry]).2 = 1 ∧
    (load_from_file stdKernel eng1 [goodEntry]).1.roi_count = eng1.roi_count ∧
    afind "Z1" (load_from_file stdKernel eng1 [goodEntry]).1.rois = some roiZ1 :=
  C10_duplicate_id_replaces eng1 roiZ1b 0 stdKernel goodEntry roiZ1 0
    (by decide) (by decide) (by rfl) (by decide)

/-- C6 counterexample: under a kernel whose validity test genuinely detects
the bowtie's proper self-intersection and whose zero-width buffer fails to
repair it (identity), loading the bowtie entry does not reject it: the
loader counts it as loaded and the zone is in the registry.  The source's
`__post_init__` never re-validates after `buffer(0)` and
`load_from_file` has no rejection path for a still-invalid polygon. -/
theorem C6_cex_still_invalid_accepted :
    strictKernel.is_valid bowtie = false ∧
    strictKernel.is_valid (strictKernel.buffer0 bowtie) = false ∧
    (load_from_file strictKernel ⟨[], [], []⟩ [bowtieEntry]).2 = 1 ∧
    (afind "Z2" (load_from_file strictKernel ⟨[], [], []⟩ [bowtieEntry]).1.rois).isSome
      = true := by
  refine ⟨?_, ?_, ?_, ?_⟩ <;>
    norm_num [load_from_file, loadStep, loadEntry, bowtieEntry, goodEntry,
      mkROIDefinition, parseReferencePoint, add_roi, aupdate, afind,
      strictKernel, selfIntersecting, polygonEdges, properCross, orient,
      bowtie, sq10]

/-- C6 amended: a zone entry whose polygon the geometry kernel reports
invalid is repaired via the zero-width buffering operation, and the entry is
then accepted unconditionally — added to the registry and counted as loaded
even when the repaired polygon is still invalid.  (Rejection of a single
entry happens only for a missing required field or fewer than 3 vertices;
other entries continue to load either way.) -/
theorem C6_repair_accepted (K : GeoKernel) (e : ROIEntry) (idv : String)
    (pts : List (ℚ × ℚ)) (eng : Engine)
    (hid : e.id = some idv) (hpts : e.points = some pts)
    (hwf : entryWellFormed e = true) (hinv : K.is_valid pts = false) :
    ∃ roi dsec, loadEntry K e = Except.ok (roi, dsec) ∧ roi.id = idv ∧
      roi.polygon = K.buffer0 pts ∧
      afind idv (load_from_file K eng [e]).1.rois = some roi ∧
      (load_from_file K eng [e]).2 = 1 := by
  obtain ⟨⟨roi, dsec⟩, hr⟩ := loadEntry_ok_of_wf K e hwf
  obtain ⟨h1, _, _, _, h5, _, h7, _⟩ := loadEntry_ok_elim hr
  have hidv : roi.id = idv := by
    rw [hid] at h1
    exact (Option.some_inj.mp h1).symm
  have hptsv : roi.points = pts := by
    rw [hpts] at h5
    exact (Option.some_inj.mp h5).symm
  refine ⟨roi, dsec, hr, hidv, ?_, ?_, ?_⟩
  · rw [h7, hptsv, if_neg (by simp [hinv])]
  · simp only [load_from_file, List.foldl_cons, List.foldl_nil, loadStep, hr]
    show afind idv (aupdate roi.id roi eng.rois) = some roi
    rw [hidv]
    exact afind_aupdate_self _ _ _
  · simp [load_from_file, loadStep, hr]

/-- Witness for C6's amended theorem on the bowtie entry under the strict
kernel. -/
theorem C6_witness :
    ∃ roi dsec, loadEntry strictKernel bowtieEntry = Except.ok (roi, dsec) ∧
      roi.id = "Z2" ∧ roi.polygon = strictKernel.buffer0 bowtie ∧
      afind "Z2" (load_from_file strictKernel ⟨[], [], []⟩ [bowtieEntry]).1.rois
        = some roi ∧
      (load_from_file strictKernel ⟨[], [], []⟩ [bowtieEntry]).2 = 1 :=
  C6_repair_accepted strictKernel bowtieEntry "Z2" bowtie ⟨[], [], []⟩
    (by rfl) (by rfl) (by decide)
    (by norm_num [strictKernel, selfIntersecting, polygonEdges, properCross,
          orient, bowtie])

theorem foldl_inv {σ α : Type} (P : σ → Prop) (f : σ → α → σ)
    (hf : ∀ s a, P s → P (f s a)) :
    ∀ (l : List α) (s : σ), P s → P (l.foldl f s) := by
  intro l
  induction l with
  | nil => intro s hs; exact hs
  | cons a t ih =>
      intro s hs
      exact ih _ (hf _ _ hs)

theorem get_state_fields (st : Store) (tid : Int) (rid : String)
    (hkey : ∀ p ∈ st, p.1 = (p.2.track_id, p.2.roi_id)) :
    (get_state st tid rid).1.track_id = tid ∧ (get_state st tid rid).1.roi_id = rid := by
  unfold get_state
  split
  · next s hs =>
      have hk : state_key tid rid = (s.track_id, s.roi_id) := hkey _ (afind_mem hs)
      have h1 : tid = s.track_id := congrArg Prod.fst hk
      have h2 : rid = s.roi_id := congrArg Prod.snd hk
      exact ⟨h1.symm, h2.symm⟩
  · exact ⟨rfl, rfl⟩

/-- Every branch of the (detection, ROI) step writes back a single state
under the pair's key, preserving the state's identity fields. -/
theorem stepDetRoi_store (K : GeoKernel) (thr : List (String × ℚ)) (now nE : ℚ)
    (det : Detection) (roi : ROIDefinition) (st : Store) :
    ∃ s', (stepDetRoi K thr now nE det roi st).1
        = aupdate (state_key det.track_id roi.id) s' st ∧
      s'.track_id = (get_state st det.track_id roi.id).1.track_id ∧
      s'.roi_id = (get_state st det.track_id roi.id).1.roi_id := by
  simp only [stepDetRoi]
  split
  · exact ⟨_, rfl, rfl, rfl⟩
  · split
    · exact ⟨_, rfl, rfl, rfl⟩
    · split
      · exact ⟨_, rfl, rfl, rfl⟩
      · exact ⟨_, rfl, rfl, rfl⟩

theorem stepDetRoi_find_ne (K : GeoKernel) (thr : List (String × ℚ)) (now nE : ℚ)
    (det : Detection) (roi : ROIDefinition) (st : Store) (k : Int × String)
    (h : k ≠ state_key det.track_id roi.id) :
    afind k (stepDetRoi K thr now nE det roi st).1 = afind k st := by
  obtain ⟨s', hs', _, _⟩ := stepDetRoi_store K thr now nE det roi st
  rw [hs', afind_aupdate_ne _ _ h]

/-- The reaper only ever removes entries: its resulting store is a sublist
selection of the input store. -/
theorem handle_lost_subset (rois : List (String × ROIDefinition)) (seen : List Int)
    (now nE : ℚ) :
    ∀ (st : Store) (p), p ∈ (handle_lost_tracks rois seen now nE st).1 → p ∈ st := by
  intro st
  induction st with
  | nil => intro p hp; simp [handle_lost_tracks] at hp
  | cons q t ih =>
      intro p hp
      obtain ⟨k, s⟩ := q
      simp only [handle_lost_tracks] at hp
      split at hp
      · rcases List.mem_cons.mp hp with rfl | hm
        · exact List.mem_cons_self _ _
        · exact List.mem_cons_of_mem _ (ih _ hm)
      · split at hp
        · rcases List.mem_cons.mp hp with rfl | hm
          · exact List.mem_cons_self _ _
          · exact List.mem_cons_of_mem _ (ih _ hm)
        · split at hp
          · rcases List.mem_cons.mp hp with rfl | hm
            · exact List.mem_cons_self _ _
            · exact List.mem_cons_of_mem _ (ih _ hm)
          · split at hp
            · exact List.mem_cons_of_mem _ (ih _ hp)
            · exact List.mem_cons_of_mem _ (ih _ hp)

theorem get_state_consistent (st : Store) (tid : Int) (rid : String)
    (h : ∀ p ∈ st, stateConsistent p.2) :
    stateConsistent (get_state st tid rid).1 := by
  unfold get_state
  split
  · next s hs => exact h _ (afind_mem hs)
  · rfl

theorem stepDetRoi_consistent (K : GeoKernel) (thr : List (String × ℚ)) (now nE : ℚ)
    (det : Detection) (roi : ROIDefinition) (st : Store)
    (h : ∀ p ∈ st, stateConsistent p.2) :
    ∀ p ∈ (stepDetRoi K thr now nE det roi st).1, stateConsistent p.2 := by
  have hs : stateConsistent (get_state st det.track_id roi.id).1 :=
    get_state_consistent st det.track_id roi.id h
  intro p hp
  simp only [stepDetRoi] at hp
  split at hp
  · rcases mem_aupdate hp with rfl | hm
    · rfl
    · exact h _ hm
  · split at hp
    · rcases mem_aupdate hp with rfl | hm
      · exact hs
      · exact h _ hm
    · split at hp
      · rcases mem_aupdate hp with rfl | hm
        · rfl
        · exact h _ hm
      · rcases mem_aupdate hp with rfl | hm
        · exact hs
        · exact h _ hm

theorem procDet_consistent (K : GeoKernel) (thr : List (String × ℚ)) (now nE : ℚ)
    (rois : List ROIDefinition) (acc : Store × List ROIEvent) (det : Detection)
    (h : ∀ p ∈ acc.1, stateConsistent p.2) :
    ∀ p ∈ (procDet K thr now nE rois acc det).1, stateConsistent p.2 := by
  unfold procDet
  split
  · exact h
  · refine foldl_inv
      (fun (a : Store × List ROIEvent) => ∀ p ∈ a.1, stateConsistent p.2)
      _ ?_ rois acc h
    intro a roi ha
    exact stepDetRoi_consistent K thr now nE det roi a.1 ha

/-- C7: for this code, an explicit Exit clears `entered_at` in the same
transition that clears `is_inside`, and a lost-Exit deletes the entry, so
the disjunct "or was true since the last exit" of the claimed invariant is
vacuous and the invariant is exactly `entered_at` set ⟺ `is_inside`.  That
relation holds for every state in the store after any `process_detections`
call (and after `reset`) provided it held before — and it holds initially
since the store starts empty and fresh states are Outside with `entered_at`
unset. -/
theorem C7_entered_iff_inside (K : GeoKernel) (eng : Engine)
    (dets : List Detection) (now now_reap now_epoch : ℚ)
    (h : ∀ p ∈ eng.track_states, stateConsistent p.2) :
    (∀ p ∈ (process_detections K eng dets now now_reap now_epoch).1.track_states,
        stateConsistent p.2) ∧
    (∀ p ∈ eng.reset.track_states, stateConsistent p.2) := by
  constructor
  · intro p hp
    simp only [process_detections] at hp
    have h1 : ∀ q ∈ (dets.foldl
        (procDet K eng.dwell_thresholds now now_epoch eng.active_rois)
        (eng.track_states, ([] : List ROIEvent))).1, stateConsistent q.2 := by
      refine foldl_inv
        (fun (a : Store × List ROIEvent) => ∀ q ∈ a.1, stateConsistent q.2)
        _ ?_ dets _ h
      intro a det ha
      exact procDet_consistent K eng.dwell_thresholds now now_epoch
        eng.active_rois a det ha
    exact h1 _ (handle_lost_subset _ _ _ _ _ _ hp)
  · intro p hp
    simp [Engine.reset] at hp

/-- Witness for C7: a frameless call on the engine holding `Z1` with an
empty store. -/
theorem C7_witness :
    (∀ p ∈ (process_detections stdKernel eng1 [] 1 1 1).1.track_states,
        stateConsistent p.2) ∧
    (∀ p ∈ eng1.reset.track_states, stateConsistent p.2) :=
  C7_entered_iff_inside stdKernel eng1 [] 1 1 1 (by simp [eng1])

theorem TSWF_mono {t t' : ℚ} (h : t ≤ t') {s : TrackState} (hs : TSWF t s) :
    TSWF t' s := by
  refine ⟨hs.1, hs.2.1, ?_⟩
  intro e l he hl
  obtain ⟨h1, h2, h3⟩ := hs.2.2 e l he hl
  exact ⟨h1, h2, le_trans h3 h⟩

theorem get_state_twf (t : ℚ) (st : Store) (tid : Int) (rid : String)
    (h : ∀ p ∈ st, TSWF t p.2) : TSWF t (get_state st tid rid).1 := by
  unfold get_state
  split
  · next s hs => exact h _ (afind_mem hs)
  · exact ⟨rfl, rfl, fun e l he hl => by cases he⟩

theorem stepDetRoi_twf (K : GeoKernel) (thr : List (String × ℚ)) (now nE : ℚ)
    (det : Detection) (roi : ROIDefinition) (st : Store)
    (hpos : 0 < now) (h : ∀ p ∈ st, TSWF now p.2) :
    ∀ p ∈ (stepDetRoi K thr now nE det roi st).1, TSWF now p.2 := by
  have hs : TSWF now (get_state st det.track_id roi.id).1 :=
    get_state_twf now st det.track_id roi.id h
  intro p hp
  simp only [stepDetRoi] at hp
  split at hp
  · rcases mem_aupdate hp with rfl | hm
    · refine ⟨rfl, rfl, ?_⟩
      intro e l he hl
      cases he; cases hl
      exact ⟨hpos, le_refl now, le_refl now⟩
    · exact h _ hm
  · split at hp
    · rename_i hc
      simp only [Bool.and_eq_true] at hc
      have hin : (get_state st det.track_id roi.id).1.is_inside = true := hc.2
      rcases mem_aupdate hp with rfl | hm
      · refine ⟨hs.1, hin.symm, ?_⟩
        intro e l he hl
        cases hl
        obtain ⟨l₀, hl₀⟩ := Option.isSome_iff_exists.mp
          (by rw [hs.2.1, hin] : (get_state st det.track_id roi.id).1.last_seen_at.isSome = true)
        obtain ⟨h1, h2, h3⟩ := hs.2.2 e l₀ he hl₀
        exact ⟨h1, le_trans h2 h3, le_refl now⟩
      · exact h _ hm
    · split at hp
      · rcases mem_aupdate hp with rfl | hm
        · exact ⟨rfl, rfl, fun e l he hl => by cases he⟩
        · exact h _ hm
      · rcases mem_aupdate hp with rfl | hm
        · exact hs
        · exact h _ hm

theorem stepDetRoi_events_nonneg (K : GeoKernel) (thr : List (String × ℚ))
    (now nE : ℚ) (det : Detection) (roi : ROIDefinition) (st : Store)
    (_hpos : 0 < now) (h : ∀ p ∈ st, TSWF now p.2) :
    ∀ ev ∈ (stepDetRoi K thr now nE det roi st).2, 0 ≤ ev.dwell_seconds := by
  have hs : TSWF now (get_state st det.track_id roi.id).1 :=
    get_state_twf now st det.track_id roi.id h
  intro ev hev
  simp only [stepDetRoi] at hev
  split at hev
  · rcases List.mem_singleton.mp hev with rfl
    simp [mkEvent]
  · split at hev
    · rename_i hc
      simp only [Bool.and_eq_true] at hc
      have hin : (get_state st det.track_id roi.id).1.is_inside = true := hc.2
      obtain ⟨e, he⟩ := Option.isSome_iff_exists.mp
        (by rw [hs.1, hin] : (get_state st det.track_id roi.id).1.entered_at.isSome = true)
      obtain ⟨l, hl⟩ := Option.isSome_iff_exists.mp
        (by rw [hs.2.1, hin] : (get_state st det.track_id roi.id).1.last_seen_at.isSome = true)
      obtain ⟨h1, h2, h3⟩ := hs.2.2 e l he hl
      split at hev
      · split at hev
        · rcases List.mem_singleton.mp hev with rfl
          simp only [mkEvent, TrackState.dwell_seconds, he]
          have : (0 : ℚ) ≤ now - e := by linarith
          simpa using this
        · cases hev
      · cases hev
    · split at hev
      · rename_i hc
        simp only [Bool.and_eq_true] at hc
        have hin : (get_state st det.track_id roi.id).1.is_inside = true := hc.2
        obtain ⟨e, he⟩ := Option.isSome_iff_exists.mp
          (by rw [hs.1, hin] : (get_state st det.track_id roi.id).1.entered_at.isSome = true)
        obtain ⟨l, hl⟩ := Option.isSome_iff_exists.mp
          (by rw [hs.2.1, hin] : (get_state st det.track_id roi.id).1.last_seen_at.isSome = true)
        obtain ⟨h1, h2, h3⟩ := hs.2.2 e l he hl
        rcases List.mem_singleton.mp hev with rfl
        have hlz : l ≠ 0 := (lt_of_lt_of_le h1 h2).ne'
        simp only [mkEvent, TrackState.dwell_seconds, he, hl, if_pos hlz]
        linarith
      · cases hev

theorem procDet_twf_nonneg (K : GeoKernel) (thr : List (String × ℚ)) (now nE : ℚ)
    (rois : List ROIDefinition) (a : Store × List ROIEvent) (det : Detection)
    (hpos : 0 < now)
    (h : (∀ p ∈ a.1, TSWF now p.2) ∧ (∀ ev ∈ a.2, 0 ≤ ev.dwell_seconds)) :
    (∀ p ∈ (procDet K thr now nE rois a det).1, TSWF now p.2) ∧
    (∀ ev ∈ (procDet K thr now nE rois a det).2, 0 ≤ ev.dwell_seconds) := by
  unfold procDet
  split
  · exact h
  · refine foldl_inv
      (fun (b : Store × List ROIEvent) =>
        (∀ p ∈ b.1, TSWF now p.2) ∧ (∀ ev ∈ b.2, 0 ≤ ev.dwell_seconds))
      _ ?_ rois a h
    intro b roi hb
    constructor
    · exact stepDetRoi_twf K thr now nE det roi b.1 hpos hb.1
    · intro ev hev
      rcases List.mem_append.mp hev with h1 | h2
      · exact hb.2 ev h1
      · exact stepDetRoi_events_nonneg K thr now nE det roi b.1 hpos hb.1 ev h2

theorem handle_lost_events_nonneg (rois : List (String × ROIDefinition))
    (seen : List Int) (nowR nE t : ℚ) :
    ∀ st : Store, (∀ p ∈ st, TSWF t p.2) →
      ∀ ev ∈ (handle_lost_tracks rois seen nowR nE st).2, 0 ≤ ev.dwell_seconds := by
  intro st
  induction st with
  | nil => intro _ ev hev; simp [handle_lost_tracks] at hev
  | cons q t' ih =>
      intro h ev hev
      obtain ⟨k, s⟩ := q
      have hs := h _ (List.mem_cons_self _ _)
      have ht' : ∀ p ∈ t', TSWF t p.2 := fun p hp => h _ (List.mem_cons_of_mem _ hp)
      simp only [handle_lost_tracks] at hev
      split at hev
      · exact ih ht' ev hev
      · rename_i hins
        split at hev
        · exact ih ht' ev hev
        · split at hev
          · exact ih ht' ev hev
          · split at hev
            · exact ih ht' ev hev
            · rcases List.mem_cons.mp hev with rfl | hm
              · have hin : s.is_inside = true := by
                  cases hb : s.is_inside
                  · exact absurd (by simp [hb]) hins
                  · rfl
                obtain ⟨e, he⟩ := Option.isSome_iff_exists.mp
                  (by rw [hs.1, hin] : s.entered_at.isSome = true)
                obtain ⟨l, hl⟩ := Option.isSome_iff_exists.mp
                  (by rw [hs.2.1, hin] : s.last_seen_at.isSome = true)
                obtain ⟨h1, h2, h3⟩ := hs.2.2 e l he hl
                have hlz : l ≠ 0 := (lt_of_lt_of_le h1 h2).ne'
                simp only [mkEvent, TrackState.dwell_seconds, he, hl, if_pos hlz]
                linarith
              · exact ih ht' ev hm

/-- C4: (a) whenever the per-(detection, ROI) step of `process_detections`
emits an explicit Exit event for a pair whose state holds
`entered_at = some e` and `last_seen_at = some l` (with `l ≠ 0`: the
monotonic readings the engine stores are positive), the event's
`dwell_seconds` equals `l - e`; (b) in any `process_detections` call on a
store whose timestamps are wellformed at some horizon `t ≤ now` with
`0 < now`, every emitted `roi_exit` event — explicit or lost — carries
`dwell_seconds ≥ 0`. -/
theorem C4_exit_dwell :
    (∀ (K : GeoKernel) (thr : List (String × ℚ)) (now nE : ℚ) (det : Detection)
      (roi : ROIDefinition) (st : Store) (s : TrackState) (e l : ℚ),
      afind (state_key det.track_id roi.id) st = some s →
      s.entered_at = some e → s.last_seen_at = some l → l ≠ 0 →
      ∀ ev ∈ (stepDetRoi K thr now nE det roi st).2,
        ev.event_type = "roi_exit" → ev.dwell_seconds = l - e) ∧
    (∀ (K : GeoKernel) (eng : Engine) (dets : List Detection) (now nowR nE t : ℚ),
      0 < now → t ≤ now →
      (∀ p ∈ eng.track_states, TSWF t p.2) →
      ∀ ev ∈ (process_detections K eng dets now nowR nE).2,
        ev.event_type = "roi_exit" → 0 ≤ ev.dwell_seconds) := by
  constructor
  · intro K thr now nE det roi st s e l hfind he hl hlz ev hev htype
    have hgs : (get_state st det.track_id roi.id).1 = s := by
      unfold get_state
      rw [hfind]
    simp only [stepDetRoi, hgs] at hev
    split at hev
    · rcases List.mem_singleton.mp hev with rfl
      exact absurd htype (by simp [mkEvent])
    · split at hev
      · split at hev
        · split at hev
          · rcases List.mem_singleton.mp hev with rfl
            exact absurd htype (by simp [mkEvent])
          · cases hev
        · cases hev
      · split at hev
        · rcases List.mem_singleton.mp hev with rfl
          simp only [mkEvent, TrackState.dwell_seconds, he, hl, if_pos hlz]
        · cases hev
  · intro K eng dets now nowR nE t hpos ht h ev hev _htype
    simp only [process_detections] at hev
    have h0 : ∀ p ∈ eng.track_states, TSWF now p.2 := fun p hp => TSWF_mono ht (h p hp)
    have hfold := foldl_inv
      (fun (a : Store × List ROIEvent) =>
        (∀ p ∈ a.1, TSWF now p.2) ∧ (∀ ev ∈ a.2, 0 ≤ ev.dwell_seconds))
      (procDet K eng.dwell_thresholds now nE eng.active_rois)
      (fun a det ha =>
        procDet_twf_nonneg K eng.dwell_thresholds now nE eng.active_rois a det hpos ha)
      dets (eng.track_states, []) ⟨h0, by simp⟩
    rcases List.mem_append.mp hev with h1 | h2
    · exact hfold.2 ev h1
    · exact handle_lost_events_nonneg eng.rois (seenTrackIds dets) nowR nE now _
        hfold.1 ev h2

/-- Witness for C4 on the concrete exit of tracker 7 from `Z1`. -/
theorem C4_witness :
    evC4.dwell_seconds = (2 : ℚ) - 1 ∧ 0 ≤ evC4.dwell_seconds := by
  constructor
  · refine C4_exit_dwell.1 stdKernel [] 5 100 detOut roiZ1 stInside insideState 1 2
      (by decide) (by rfl) (by rfl) (by norm_num) evC4 ?_ (by rfl)
    norm_num [stepDetRoi, get_state, afind, state_key, stInside, insideState,
      detOut, roiZ1, stdKernel, pointInPolygon, polygonEdges, edgeCrossesRay,
      sq10, compute_reference_point, mkEvent, TrackState.dwell_seconds, evC4,
      aupdate]
  · refine C4_exit_dwell.2 stdKernel engC4 [detOut] 5 5 100 2 (by norm_num)
      (by norm_num) ?_ evC4 ?_ (by rfl)
    · intro p hp
      simp only [engC4, stInside, List.mem_singleton] at hp
      subst hp
      refine ⟨rfl, rfl, ?_⟩
      intro e l he hl
      cases he; cases hl
      norm_num
    · norm_num [process_detections, procDet, stepDetRoi, get_state, afind,
        state_key, engC4, stInside, insideState, detOut, roiZ1, stdKernel,
        pointInPolygon, polygonEdges, edgeCrossesRay, sq10,
        compute_reference_point, mkEvent, TrackState.dwell_seconds, evC4,
        aupdate, seenTrackIds, handle_lost_tracks, Engine.active_rois,
        truthyTime]

theorem afind_isSome_of_mem {κ α : Type} [DecidableEq κ] {k : κ} {v : α}
    {l : List (κ × α)} (h : (k, v) ∈ l) : (afind k l).isSome = true := by
  induction l with
  | nil => cases h
  | cons p t ih =>
      obtain ⟨k₀, v₀⟩ := p
      by_cases hk : k₀ = k
      · simp [afind, hk]
      · rcases List.mem_cons.mp h with heq | hm
        · exact absurd (congrArg Prod.fst heq).symm hk
        · simp only [afind, if_neg hk]
          exact ih hm

theorem afind_eq_of_mem_nodup {κ α : Type} [DecidableEq κ] {k : κ} {v : α}
    {l : List (κ × α)} (hnd : (l.map Prod.fst).Nodup) (h : (k, v) ∈ l) :
    afind k l = some v := by
  induction l with
  | nil => cases h
  | cons p t ih =>
      obtain ⟨k₀, v₀⟩ := p
      simp only [List.map_cons, List.nodup_cons] at hnd
      rcases List.mem_cons.mp h with heq | hm
      · obtain ⟨h1, h2⟩ := Prod.mk.injEq .. ▸ heq.symm
        subst h1
        subst h2
        simp [afind]
      · have hk : ¬(k₀ = k) := by
          intro hh
          subst hh
          exact hnd.1 (List.mem_map.mpr ⟨(k₀, v), hm, rfl⟩)
        simp only [afind, if_neg hk]
        exact ih hnd.2 hm

theorem RegWF_active_isSome {rois : List (String × ROIDefinition)}
    (hreg : RegWF rois) {roi : ROIDefinition}
    (h : roi ∈ (rois.map Prod.snd).filter (fun r => r.is_active)) :
    (afind roi.id rois).isSome = true := by
  have hmem : roi ∈ rois.map Prod.snd := (List.mem_filter.mp h).1
  obtain ⟨p, hp, hsnd⟩ := List.mem_map.mp hmem
  have hid : p.1 = roi.id := by
    rw [hreg.2 p hp, hsnd]
  obtain ⟨k, v⟩ := p
  subst hsnd
  rw [← hid]
  exact afind_isSome_of_mem hp

theorem stepDetRoi_swf (K : GeoKernel) (thr : List (String × ℚ)) (now nE : ℚ)
    (det : Detection) (roi : ROIDefinition) (st : Store)
    (rois : List (String × ROIDefinition))
    (hroi : (afind roi.id rois).isSome = true) (htid : 0 ≤ det.track_id)
    (h : StoreWF rois st) : StoreWF rois (stepDetRoi K thr now nE det roi st).1 := by
  obtain ⟨s', hst, hstid, hsrid⟩ := stepDetRoi_store K thr now nE det roi st
  have hfields := get_state_fields st det.track_id roi.id (fun p hp => (h.2 p hp).1)
  rw [hst]
  constructor
  · exact nodup_aupdate _ _ h.1
  · intro p hp
    rcases mem_aupdate hp with rfl | hm
    · refine ⟨?_, ?_, ?_⟩
      · show state_key det.track_id roi.id = (s'.track_id, s'.roi_id)
        rw [hstid, hsrid, hfields.1, hfields.2]
        rfl
      · show 0 ≤ s'.track_id
        rw [hstid, hfields.1]
        exact htid
      · show (afind s'.roi_id rois).isSome = true
        rw [hsrid, hfields.2]
        exact hroi
    · exact h.2 p hm

theorem foldl_inv_mem {σ α : Type} (P : σ → Prop) (f : σ → α → σ) (l : List α)
    (hf : ∀ s a, a ∈ l → P s → P (f s a)) :
    ∀ s, P s → P (l.foldl f s) := by
  induction l with
  | nil => intro s hs; exact hs
  | cons a t ih =>
      intro s hs
      exact ih (fun s' a' ha' hs' => hf s' a' (List.mem_cons_of_mem _ ha') hs') _
        (hf s a (List.mem_cons_self _ _) hs)

theorem procDet_swf (K : GeoKernel) (thr : List (String × ℚ)) (now nE : ℚ)
    (rois : List (String × ROIDefinition)) (activeRois : List ROIDefinition)
    (hactive : ∀ roi ∈ activeRois, (afind roi.id rois).isSome = true)
    (a : Store × List ROIEvent) (det : Detection)
    (h : StoreWF rois a.1) : StoreWF rois (procDet K thr now nE activeRois a det).1 := by
  unfold procDet
  split
  · exact h
  · rename_i hneg
    have htid : 0 ≤ det.track_id := Int.not_lt.mp hneg
    refine foldl_inv_mem (fun (b : Store × List ROIEvent) => StoreWF rois b.1)
      _ activeRois ?_ a h
    intro b roi hroi hb
    exact stepDetRoi_swf K thr now nE det roi b.1 rois (hactive roi hroi) htid hb

theorem foldl_procDet_swf (K : GeoKernel) (thr : List (String × ℚ)) (now nE : ℚ)
    (rois : List (String × ROIDefinition)) (activeRois : List ROIDefinition)
    (hactive : ∀ roi ∈ activeRois, (afind roi.id rois).isSome = true)
    (dets : List Detection) (a : Store × List ROIEvent)
    (h : StoreWF rois a.1) :
    StoreWF rois (dets.foldl (procDet K thr now nE activeRois) a).1 := by
  refine foldl_inv (fun (b : Store × List ROIEvent) => StoreWF rois b.1) _ ?_ dets a h
  intro b det hb
  exact procDet_swf K thr now nE rois activeRois hactive b det hb

/-- The reaper's resulting store is a sublist of its input. -/
theorem handle_lost_sublist (rois : List (String × ROIDefinition)) (seen : List Int)
    (now nE : ℚ) :
    ∀ st : Store, (handle_lost_tracks rois seen now nE st).1.Sublist st := by
  intro st
  induction st with
  | nil => simp [handle_lost_tracks]
  | cons q t ih =>
      obtain ⟨k, s⟩ := q
      simp only [handle_lost_tracks]
      split
      · exact ih.cons₂ (k, s)
      · split
        · exact ih.cons₂ (k, s)
        · split
          · exact ih.cons₂ (k, s)
          · split
            · exact ih.cons _
            · exact ih.cons _

theorem handle_lost_swf (rois : List (String × ROIDefinition)) (seen : List Int)
    (now nE : ℚ) (st : Store) (h : StoreWF rois st) :
    StoreWF rois (handle_lost_tracks rois seen now nE st).1 := by
  constructor
  · exact ((handle_lost_sublist rois seen now nE st).map Prod.fst).nodup h.1
  · intro p hp
    exact h.2 p (handle_lost_subset rois seen now nE st p hp)

theorem procDet_find_absent (K : GeoKernel) (thr : List (String × ℚ)) (now nE : ℚ)
    (activeRois : List ROIDefinition) (a : Store × List ROIEvent) (det : Detection)
    (tid : Int) (rid : String) (h : det.track_id ≠ tid) :
    afind (state_key tid rid) (procDet K thr now nE activeRois a det).1
      = afind (state_key tid rid) a.1 := by
  unfold procDet
  split
  · rfl
  · refine foldl_inv
      (fun (b : Store × List ROIEvent) =>
        afind (state_key tid rid) b.1 = afind (state_key tid rid) a.1)
      _ ?_ activeRois a rfl
    intro b roi hb
    have hne : state_key tid rid ≠ state_key det.track_id roi.id := by
      intro hh
      exact h (congrArg Prod.fst hh).symm
    rw [show (let r := stepDetRoi K thr now nE det roi b.1; (r.1, b.2 ++ r.2)).1
        = (stepDetRoi K thr now nE det roi b.1).1 from rfl]
    rw [stepDetRoi_find_ne K thr now nE det roi b.1 _ hne]
    exact hb

theorem foldl_procDet_find_absent (K : GeoKernel) (thr : List (String × ℚ))
    (now nE : ℚ) (activeRois : List ROIDefinition) (dets : List Detection)
    (tid : Int) (rid : String) (h : ∀ d ∈ dets, d.track_id ≠ tid) :
    ∀ a, afind (state_key tid rid) (dets.foldl (procDet K thr now nE activeRois) a).1
      = afind (state_key tid rid) a.1 := by
  induction dets with
  | nil => intro a; rfl
  | cons d t ih =>
      intro a
      rw [List.foldl_cons,
        ih (fun d' hd' => h d' (List.mem_cons_of_mem _ hd')),
        procDet_find_absent K thr now nE activeRois a d tid rid
          (h d (List.mem_cons_self _ _))]

theorem mem_seenTrackIds {dets : List Detection} {tid : Int} (htid : 0 ≤ tid) :
    tid ∈ seenTrackIds dets ↔ ∃ d ∈ dets, d.track_id = tid := by
  simp only [seenTrackIds, List.mem_map, List.mem_filter]
  constructor
  · rintro ⟨d, ⟨hd, _⟩, rfl⟩
    exact ⟨d, hd, rfl⟩
  · rintro ⟨d, hd, rfl⟩
    refine ⟨d, ⟨hd, ?_⟩, rfl⟩
    simp only [Bool.not_eq_true', decide_eq_false_iff_not]
    omega

/-- If an inside entry whose tracker is unseen and whose tolerance window
has expired sits in the store and its ROI resolves, the reaper emits the
corresponding lost-Exit event. -/
theorem handle_lost_fires (rois : List (String × ROIDefinition)) (seen : List Int)
    (nowR nE : ℚ) :
    ∀ (st : Store) (k : Int × String) (s : TrackState) (roi : ROIDefinition),
      (k, s) ∈ st → s.is_inside = true → seen.contains s.track_id = false →
      ¬(truthyTime s.last_seen_at = true ∧ nowR - s.last_seen_at.getD 0 < 1) →
      afind s.roi_id rois = some roi →
      mkEvent "roi_exit" roi s.track_id s.confidence s.bbox nE (s.dwell_seconds nowR)
        ∈ (handle_lost_tracks rois seen nowR nE st).2 := by
  intro st
  induction st with
  | nil => intro k s roi hmem; cases hmem
  | cons q t ih =>
      intro k s roi hmem hin hseen htol hroi
      obtain ⟨k₀, s₀⟩ := q
      rcases List.mem_cons.mp hmem with heq | hm
      · have hk : k₀ = k := (congrArg Prod.fst heq).symm
        have hs : s₀ = s := (congrArg Prod.snd heq).symm
        subst hk
        subst hs
        simp only [handle_lost_tracks]
        rw [if_neg (show ¬((!s₀.is_inside) = true) by
            rw [hin]; exact fun hc => Bool.noConfusion hc),
          if_neg (show ¬(seen.contains s₀.track_id = true) by
            rw [hseen]; exact fun hc => Bool.noConfusion hc),
          if_neg htol]
        simp only [hroi]
        exact List.mem_cons_self _ _
      · have hrec := ih k s roi hm hin hseen htol hroi
        simp only [handle_lost_tracks]
        split
        · exact hrec
        · split
          · exact hrec
          · split
            · exact hrec
            · split
              · exact hrec
              · exact List.mem_cons_of_mem _ hrec

/-- Every event the reaper emits comes from an inside, unseen,
tolerance-expired entry of the store whose ROI resolves, and is exactly the
lost-Exit for that entry. -/
theorem handle_lost_events_from (rois : List (String × ROIDefinition))
    (seen : List Int) (nowR nE : ℚ) :
    ∀ (st : Store) (ev : ROIEvent), ev ∈ (handle_lost_tracks rois seen nowR nE st).2 →
      ∃ k s roi, (k, s) ∈ st ∧ s.is_inside = true ∧
        seen.contains s.track_id = false ∧
        ¬(truthyTime s.last_seen_at = true ∧ nowR - s.last_seen_at.getD 0 < 1) ∧
        afind s.roi_id rois = some roi ∧
        ev = mkEvent "roi_exit" roi s.track_id s.confidence s.bbox nE
          (s.dwell_seconds nowR) := by
  intro st
  induction st with
  | nil => intro ev hev; simp [handle_lost_tracks] at hev
  | cons q t ih =>
      intro ev hev
      obtain ⟨k₀, s₀⟩ := q
      simp only [handle_lost_tracks] at hev
      split at hev
      · obtain ⟨k, s, roi, hmem, hrest⟩ := ih ev hev
        exact ⟨k, s, roi, List.mem_cons_of_mem _ hmem, hrest⟩
      · rename_i hins
        split at hev
        · obtain ⟨k, s, roi, hmem, hrest⟩ := ih ev hev
          exact ⟨k, s, roi, List.mem_cons_of_mem _ hmem, hrest⟩
        · rename_i hseen
          split at hev
          · obtain ⟨k, s, roi, hmem, hrest⟩ := ih ev hev
            exact ⟨k, s, roi, List.mem_cons_of_mem _ hmem, hrest⟩
          · rename_i htol
            split at hev
            · obtain ⟨k, s, roi, hmem, hrest⟩ := ih ev hev
              exact ⟨k, s, roi, List.mem_cons_of_mem _ hmem, hrest⟩
            · rename_i roi₀ hroi₀
              rcases List.mem_cons.mp hev with rfl | hm
              · refine ⟨k₀, s₀, roi₀, List.mem_cons_self _ _, ?_, ?_, htol, hroi₀, rfl⟩
                · cases hb : s₀.is_inside
                  · exact absurd (by simp [hb]) hins
                  · rfl
                · cases hb : seen.contains s₀.track_id
                  · rfl
                  · exact absurd hb hseen
              · obtain ⟨k, s, roi, hmem, hrest⟩ := ih ev hm
                exact ⟨k, s, roi, List.mem_cons_of_mem _ hmem, hrest⟩

/-- After the reaper fires for an entry, the entry is gone from the store. -/
theorem handle_lost_deletes (rois : List (String × ROIDefinition)) (seen : List Int)
    (nowR nE : ℚ) :
    ∀ (st : Store) (k : Int × String) (s : TrackState),
      (st.map Prod.fst).Nodup → (k, s) ∈ st → s.is_inside = true →
      seen.contains s.track_id = false →
      ¬(truthyTime s.last_seen_at = true ∧ nowR - s.last_seen_at.getD 0 < 1) →
      afind k (handle_lost_tracks rois seen nowR nE st).1 = none := by
  intro st
  induction st with
  | nil => intro k s _ hmem; cases hmem
  | cons q t ih =>
      intro k s hnd hmem hin hseen htol
      obtain ⟨k₀, s₀⟩ := q
      simp only [List.map_cons, List.nodup_cons] at hnd
      rcases List.mem_cons.mp hmem with heq | hm
      · have hk : k₀ = k := (congrArg Prod.fst heq).symm
        have hs : s₀ = s := (congrArg Prod.snd heq).symm
        subst hk
        subst hs
        simp only [handle_lost_tracks]
        rw [if_neg (show ¬((!s₀.is_inside) = true) by
            rw [hin]; exact fun hc => Bool.noConfusion hc),
          if_neg (show ¬(seen.contains s₀.track_id = true) by
            rw [hseen]; exact fun hc => Bool.noConfusion hc),
          if_neg htol]
        have hnot : k₀ ∉ ((handle_lost_tracks rois seen nowR nE t).1.map Prod.fst) := by
          intro hkm
          exact hnd.1 (List.map_subset Prod.fst
            ((handle_lost_sublist rois seen nowR nE t).subset) hkm)
        split
        · exact (afind_eq_none_iff _ _).mpr hnot
        · exact (afind_eq_none_iff _ _).mpr hnot
      · have hk₀ : k₀ ≠ k := by
          intro hh
          subst hh
          exact hnd.1 (List.mem_map.mpr ⟨(k₀, s), hm, rfl⟩)
        have hrec := ih k s hnd.2 hm hin hseen htol
        simp only [handle_lost_tracks]
        split
        · simp only [afind, if_neg hk₀]
          exact hrec
        · split
          · simp only [afind, if_neg hk₀]
            exact hrec
          · split
            · simp only [afind, if_neg hk₀]
              exact hrec
            · split
              · exact hrec
              · exact hrec

theorem process_detections_events (K : GeoKernel) (eng : Engine)
    (dets : List Detection) (now nowR nE : ℚ) :
    (process_detections K eng dets now nowR nE).2
      = (dets.foldl (procDet K eng.dwell_thresholds now nE eng.active_rois)
          (eng.track_states, [])).2 ++ lostExitEvents K eng dets now nowR nE := rfl

theorem RegWF_afind_id {rois : List (String × ROIDefinition)} (hreg : RegWF rois)
    {rid : String} {roi : ROIDefinition} (h : afind rid rois = some roi) :
    roi.id = rid :=
  (hreg.2 _ (afind_mem h)).symm

/-- C2: for a pair (tid, rid) marked inside before the call (state `s` with
`last_seen_at = some l`, reachable stores guaranteeing `0 < l` via `TSWF`),
the reaper portion of `process_detections` emits a lost-Exit for the pair
iff the object is absent from the frame's detection list and at least 1.0
second of monotonic time has elapsed past `l` at the reaper's clock reading
`nowR`; and when those conditions hold, the pair's `TrackState` entry is
deleted from the store, so a subsequent `_get_state` access recreates it
fresh in the Outside state. -/
theorem C2_lost_exit_iff (K : GeoKernel) (eng : Engine) (dets : List Detection)
    (now nowR nE t : ℚ) (tid : Int) (rid : String) (s : TrackState) (l : ℚ)
    (hreg : RegWF eng.rois) (hswf : StoreWF eng.rois eng.track_states)
    (htwf : ∀ p ∈ eng.track_states, TSWF t p.2)
    (hfind : afind (state_key tid rid) eng.track_states = some s)
    (hin : s.is_inside = true) (hl : s.last_seen_at = some l) :
    ((∃ ev ∈ lostExitEvents K eng dets now nowR nE,
        ev.track_id = tid ∧ ev.roi_id = rid ∧ ev.event_type = "roi_exit")
      ↔ ((∀ d ∈ dets, d.track_id ≠ tid) ∧ 1 ≤ nowR - l)) ∧
    ((∀ d ∈ dets, d.track_id ≠ tid) → 1 ≤ nowR - l →
      afind (state_key tid rid)
          (process_detections K eng dets now nowR nE).1.track_states = none ∧
      (get_state (process_detections K eng dets now nowR nE).1.track_states tid rid).1
        = { track_id := tid, roi_id := rid }) := by
  have hmem0 : (state_key tid rid, s) ∈ eng.track_states := afind_mem hfind
  have hts : TSWF t s := htwf _ hmem0
  have hkey0 := hswf.2 _ hmem0
  have hstid : s.track_id = tid := (congrArg Prod.fst hkey0.1).symm
  have hsrid : s.roi_id = rid := (congrArg Prod.snd hkey0.1).symm
  have h0tid : 0 ≤ tid := hstid ▸ hkey0.2.1
  obtain ⟨e, he⟩ := Option.isSome_iff_exists.mp
    (by rw [hts.1, hin] : s.entered_at.isSome = true)
  obtain ⟨h1e, h2e, _⟩ := hts.2.2 e l he hl
  have hlpos : 0 < l := lt_of_lt_of_le h1e h2e
  have htruthy : truthyTime s.last_seen_at = true := by
    rw [hl]
    simp [truthyTime, hlpos.ne']
  have hactive : ∀ roi ∈ eng.active_rois, (afind roi.id eng.rois).isSome = true :=
    fun roi hroi => RegWF_active_isSome hreg hroi
  have hswf1 : StoreWF eng.rois
      (dets.foldl (procDet K eng.dwell_thresholds now nE eng.active_rois)
        (eng.track_states, [])).1 :=
    foldl_procDet_swf K eng.dwell_thresholds now nE eng.rois eng.active_rois
      hactive dets (eng.track_states, []) hswf
  have habs_of_nocontain :
      (seenTrackIds dets).contains tid = false → ∀ d ∈ dets, d.track_id ≠ tid := by
    intro hc d hd hdt
    have hmemseen : tid ∈ seenTrackIds dets :=
      (mem_seenTrackIds h0tid).mpr ⟨d, hd, hdt⟩
    have : (seenTrackIds dets).contains tid = true := by simpa using hmemseen
    rw [hc] at this
    exact Bool.noConfusion this
  have hnocontain_of_abs :
      (∀ d ∈ dets, d.track_id ≠ tid) → (seenTrackIds dets).contains tid = false := by
    intro habs
    cases hb : (seenTrackIds dets).contains tid
    · rfl
    · obtain ⟨d, hd, hdt⟩ := (mem_seenTrackIds h0tid).mp (by simpa using hb)
      exact absurd hdt (habs d hd)
  constructor
  · constructor
    · rintro ⟨ev, hev, hevtid, hevrid, _⟩
      simp only [lostExitEvents] at hev
      obtain ⟨k₁, s₁, roi₁, hmem₁, hin₁, hseen₁, htol₁, hroi₁, hev_eq⟩ :=
        handle_lost_events_from eng.rois (seenTrackIds dets) nowR nE _ ev hev
      have hs₁tid : s₁.track_id = tid := by
        rw [← hevtid, hev_eq]
        rfl
      have hs₁rid : s₁.roi_id = rid := by
        rw [← RegWF_afind_id hreg hroi₁, ← hevrid, hev_eq]
        rfl
      have habs : ∀ d ∈ dets, d.track_id ≠ tid :=
        habs_of_nocontain (hs₁tid ▸ hseen₁)
      refine ⟨habs, ?_⟩
      have hfind1 : afind (state_key tid rid)
          (dets.foldl (procDet K eng.dwell_thresholds now nE eng.active_rois)
            (eng.track_states, [])).1 = some s := by
        rw [foldl_procDet_find_absent K eng.dwell_thresholds now nE
          eng.active_rois dets tid rid habs]
        exact hfind
      have hkey₁ : k₁ = state_key tid rid := by
        have hk : k₁ = (s₁.track_id, s₁.roi_id) := (hswf1.2 _ hmem₁).1
        rw [hs₁tid, hs₁rid] at hk
        exact hk
      have hfind₁ : afind (state_key tid rid)
          (dets.foldl (procDet K eng.dwell_thresholds now nE eng.active_rois)
            (eng.track_states, [])).1 = some s₁ :=
        afind_eq_of_mem_nodup hswf1.1 (hkey₁ ▸ hmem₁)
      have hs₁ : s₁ = s := by
        have := hfind₁.symm.trans hfind1
        exact Option.some_inj.mp this
      subst hs₁
      by_contra hlt
      exact htol₁ ⟨htruthy, by rw [hl]; simpa using by linarith [not_le.mp hlt]⟩
    · rintro ⟨habs, htol⟩
      have hfind1 : afind (state_key tid rid)
          (dets.foldl (procDet K eng.dwell_thresholds now nE eng.active_rois)
            (eng.track_states, [])).1 = some s := by
        rw [foldl_procDet_find_absent K eng.dwell_thresholds now nE
          eng.active_rois dets tid rid habs]
        exact hfind
      obtain ⟨roi₀, hroi₀⟩ := Option.isSome_iff_exists.mp hkey0.2.2
      have hseenF : (seenTrackIds dets).contains s.track_id = false := by
        rw [hstid]
        exact hnocontain_of_abs habs
      have htolF : ¬(truthyTime s.last_seen_at = true ∧
          nowR - s.last_seen_at.getD 0 < 1) := by
        rintro ⟨_, hlt⟩
        rw [hl] at hlt
        simp only [Option.getD_some] at hlt
        linarith
      refine ⟨mkEvent "roi_exit" roi₀ s.track_id s.confidence s.bbox nE
        (s.dwell_seconds nowR), ?_, ?_, ?_, rfl⟩
      · exact handle_lost_fires eng.rois (seenTrackIds dets) nowR nE _
          (state_key tid rid) s roi₀ (afind_mem hfind1) hin hseenF htolF hroi₀
      · exact hstid
      · show roi₀.id = rid
        rw [RegWF_afind_id hreg hroi₀, hsrid]
  · intro habs htol
    have hfind1 : afind (state_key tid rid)
        (dets.foldl (procDet K eng.dwell_thresholds now nE eng.active_rois)
          (eng.track_states, [])).1 = some s := by
      rw [foldl_procDet_find_absent K eng.dwell_thresholds now nE
        eng.active_rois dets tid rid habs]
      exact hfind
    have hseenF : (seenTrackIds dets).contains s.track_id = false := by
      rw [hstid]
      exact hnocontain_of_abs habs
    have htolF : ¬(truthyTime s.last_seen_at = true ∧
        nowR - s.last_seen_at.getD 0 < 1) := by
      rintro ⟨_, hlt⟩
      rw [hl] at hlt
      simp only [Option.getD_some] at hlt
      linarith
    have hdel : afind (state_key tid rid)
        (handle_lost_tracks eng.rois (seenTrackIds dets) nowR nE
          (dets.foldl (procDet K eng.dwell_thresholds now nE eng.active_rois)
            (eng.track_states, [])).1).1 = none :=
      handle_lost_deletes eng.rois (seenTrackIds dets) nowR nE _
        (state_key tid rid) s hswf1.1 (afind_mem hfind1) hin hseenF htolF
    refine ⟨hdel, ?_⟩
    show (get_state _ tid rid).1 = _
    unfold get_state
    rw [show (process_detections K eng dets now nowR nE).1.track_states
      = (handle_lost_tracks eng.rois (seenTrackIds dets) nowR nE
        (dets.foldl (procDet K eng.dwell_thresholds now nE eng.active_rois)
          (eng.track_states, [])).1).1 from rfl]
    rw [hdel]

/-- Witness for C2: tracker 7 inside `Z1` (last seen at 2), an empty frame
at reaper time 4. -/
theorem C2_witness :
    (∃ ev ∈ lostExitEvents stdKernel engC4 [] 4 4 100,
        ev.track_id = 7 ∧ ev.roi_id = "Z1" ∧ ev.event_type = "roi_exit") ∧
    afind (state_key 7 "Z1")
        (process_detections stdKernel engC4 [] 4 4 100).1.track_states = none ∧
    (get_state (process_detections stdKernel engC4 [] 4 4 100).1.track_states
        7 "Z1").1 = { track_id := 7, roi_id := "Z1" } := by
  have h := C2_lost_exit_iff stdKernel engC4 [] 4 4 100 2 7 "Z1" insideState 2
    (by exact ⟨by decide, by decide⟩)
    (by refine ⟨by decide, ?_⟩
        intro p hp
        simp only [engC4, stInside, List.mem_singleton] at hp
        subst hp
        exact ⟨rfl, by decide, by decide⟩)
    (by intro p hp
        simp only [engC4, stInside, List.mem_singleton] at hp
        subst hp
        refine ⟨rfl, rfl, ?_⟩
        intro e l he hl
        simp only [insideState, Option.some.injEq] at he hl
        subst he
        subst hl
        norm_num)
    (by rfl) (by rfl) (by rfl)
  have habs : ∀ d ∈ ([] : List Detection), d.track_id ≠ 7 := by simp
  have htol : (1 : ℚ) ≤ 4 - 2 := by norm_num
  exact ⟨h.1.mpr ⟨habs, htol⟩, (h.2 habs htol).1, (h.2 habs htol).2⟩

theorem add_roi_thrwf (eng : Engine) (roi : ROIDefinition) (d : ℚ)
    (h : ThrWF eng.dwell_thresholds) :
    ThrWF (add_roi eng roi d).dwell_thresholds := by
  show ThrWF (if 0 < d then aupdate roi.id d eng.dwell_thresholds
    else eng.dwell_thresholds)
  split
  · rename_i hd
    intro p hp
    rcases mem_aupdate hp with rfl | hm
    · exact hd
    · exact h p hm
  · exact h

theorem load_thrwf (K : GeoKernel) (eng : Engine) (entries : List ROIEntry)
    (h : ThrWF eng.dwell_thresholds) :
    ThrWF (load_from_file K eng entries).1.dwell_thresholds := by
  refine foldl_inv (fun (a : Engine × Nat) => ThrWF a.1.dwell_thresholds)
    (loadStep K) ?_ entries (eng, 0) h
  intro a e ha
  unfold loadStep
  split
  · rename_i r heq
    exact add_roi_thrwf a.1 r.1 r.2 ha
  · exact ha

/-- C3 amended: a `dwell_time` event is emitted only for a zone present in
the dwell-threshold map — which holds exactly the zones registered with
`dwell_threshold_sec > 0` (parts 2 and 3) — and precisely at a frame where
the pair's updated dwell lies in `[threshold, threshold + 0.2)`.  The grace
window only approximates "at most once per inside-interval": several frames
of one continuous inside-interval can fall in the window (see the
counterexample). -/
theorem C3_dwell_amended :
    (∀ (K : GeoKernel) (thr : List (String × ℚ)) (now nE : ℚ) (det : Detection)
      (roi : ROIDefinition) (st : Store), ThrWF thr →
      ∀ ev ∈ (stepDetRoi K thr now nE det roi st).2, ev.event_type = "dwell_time" →
        ∃ threshold, afind roi.id thr = some threshold ∧ 0 < threshold ∧
          threshold ≤ ev.dwell_seconds ∧ ev.dwell_seconds - threshold < 1 / 5) ∧
    (∀ (eng : Engine) (roi : ROIDefinition) (d : ℚ),
      ThrWF eng.dwell_thresholds → ThrWF (add_roi eng roi d).dwell_thresholds) ∧
    (∀ (K : GeoKernel) (eng : Engine) (entries : List ROIEntry),
      ThrWF eng.dwell_thresholds →
      ThrWF (load_from_file K eng entries).1.dwell_thresholds) := by
  refine ⟨?_, add_roi_thrwf, load_thrwf⟩
  intro K thr now nE det roi st hthr ev hev htype
  simp only [stepDetRoi] at hev
  split at hev
  · rcases List.mem_singleton.mp hev with rfl
    exact absurd htype (by simp [mkEvent])
  · split at hev
    · split at hev
      · rename_i threshold hth
        split at hev
        · rename_i hcond
          rcases List.mem_singleton.mp hev with rfl
          exact ⟨threshold, hth, hthr _ (afind_mem hth), hcond.1, hcond.2⟩
        · cases hev
      · cases hev
    · split at hev
      · rcases List.mem_singleton.mp hev with rfl
        exact absurd htype (by simp [mkEvent])
      · cases hev

/-- C3 counterexample: with zone `Z1` carrying a 2.0 s threshold, a tracker
that stays inside at monotonic times 1, 3 and 3.1 satisfies the grace-window
test (`dwell ≥ threshold` and `dwell − threshold < 0.2`) at both the second
frame (dwell 2.0) and the third (dwell 2.1): two `dwell_time` events are
emitted within one continuous inside-interval — one `roi_enter` and no
`roi_exit` anywhere in the run. -/
theorem C3_cex_double_dwell :
    ((runCalls stdKernel engC3 callsC3).2.filter
        (fun ev => ev.event_type = "dwell_time")).length = 2 ∧
    ((runCalls stdKernel engC3 callsC3).2.filter
        (fun ev => ev.event_type = "roi_exit")).length = 0 ∧
    ((runCalls stdKernel engC3 callsC3).2.filter
        (fun ev => ev.event_type = "roi_enter")).length = 1 := by
  norm_num [runCalls, process_detections, procDet, stepDetRoi, get_state,
    afind, aupdate, state_key, handle_lost_tracks, truthyTime,
    Engine.active_rois, compute_reference_point, pointInPolygon, polygonEdges,
    edgeCrossesRay, mkEvent, TrackState.dwell_seconds, engC3, roiZ1, sq10,
    detIn, stdKernel, callsC3, seenTrackIds, List.filter]
  decide

/-- Witness for C3's amended theorem on the concrete dwell event `evC3`. -/
theorem C3_witness :
    (∃ threshold, afind roiZ1.id [("Z1", (2 : ℚ))] = some threshold ∧
      0 < threshold ∧ threshold ≤ evC3.dwell_seconds ∧
      evC3.dwell_seconds - threshold < 1 / 5) ∧
    ThrWF (add_roi engC3 roiZ1 3).dwell_thresholds ∧
    ThrWF (load_from_file stdKernel engC3 [goodEntry]).1.dwell_thresholds := by
  refine ⟨?_, ?_, ?_⟩
  · refine C3_dwell_amended.1 stdKernel [("Z1", 2)] 3 102 detIn roiZ1 stInside
      ?_ evC3 ?_ (by rfl)
    · intro p hp
      simp only [List.mem_singleton] at hp
      subst hp
      norm_num
    · norm_num [stepDetRoi, get_state, afind, aupdate, state_key, stInside,
        insideState, detIn, roiZ1, stdKernel, pointInPolygon, polygonEdges,
        edgeCrossesRay, sq10, compute_reference_point, mkEvent,
        TrackState.dwell_seconds, evC3]
  · refine C3_dwell_amended.2.1 engC3 roiZ1 3 ?_
    intro p hp
    simp only [engC3, List.mem_singleton] at hp
    subst hp
    norm_num
  · refine C3_dwell_amended.2.2 stdKernel engC3 [goodEntry] ?_
    intro p hp
    simp only [engC3, List.mem_singleton] at hp
    subst hp
    norm_num

theorem altRun_append (b : Bool) (xs ys : List Bool) :
    altRun b (xs ++ ys) = (altRun b xs).bind (fun b' => altRun b' ys) := by
  induction xs generalizing b with
  | nil => simp [altRun]
  | cons x t ih =>
      simp only [List.cons_append, altRun]
      split
      · exact ih x
      · simp

theorem pairInside_get_state (st : Store) (tid : Int) (rid : String) :
    (get_state st tid rid).1.is_inside = pairInside st tid rid := by
  cases hf : afind (state_key tid rid) st <;>
    simp [get_state, pairInside, hf]

theorem pairInside_aupdate_self (st : Store) (tid : Int) (rid : String)
    (s : TrackState) :
    pairInside (aupdate (state_key tid rid) s st) tid rid = s.is_inside := by
  unfold pairInside
  rw [afind_aupdate_self]

theorem pairEventKind_none {tid : Int} {rid : String} {ev : ROIEvent}
    (h : ¬(ev.track_id = tid ∧ ev.roi_id = rid)) :
    pairEventKind tid rid ev = none := by
  unfold pairEventKind
  rw [if_neg h]

theorem stepDetRoi_events_shape (K : GeoKernel) (thr : List (String × ℚ))
    (now nE : ℚ) (det : Detection) (roi : ROIDefinition) (st : Store) :
    ∀ ev ∈ (stepDetRoi K thr now nE det roi st).2,
      ev.track_id = det.track_id ∧ ev.roi_id = roi.id := by
  intro ev hev
  simp only [stepDetRoi] at hev
  split at hev
  · rcases List.mem_singleton.mp hev with rfl
    exact ⟨rfl, rfl⟩
  · split at hev
    · split at hev
      · split at hev
        · rcases List.mem_singleton.mp hev with rfl
          exact ⟨rfl, rfl⟩
        · cases hev
      · cases hev
    · split at hev
      · rcases List.mem_singleton.mp hev with rfl
        exact ⟨rfl, rfl⟩
      · cases hev

/-- One (detection, ROI) step respects the pair's alternation automaton. -/
theorem stepDetRoi_alt (K : GeoKernel) (thr : List (String × ℚ)) (now nE : ℚ)
    (det : Detection) (roi : ROIDefinition) (st : Store) (tid : Int) (rid : String) :
    altRun (pairInside st tid rid)
        (pairTrace tid rid (stepDetRoi K thr now nE det roi st).2)
      = some (pairInside (stepDetRoi K thr now nE det roi st).1 tid rid) := by
  by_cases hpair : det.track_id = tid ∧ roi.id = rid
  · obtain ⟨h1, h2⟩ := hpair
    subst h1
    subst h2
    have hgs := pairInside_get_state st det.track_id roi.id
    simp only [stepDetRoi]
    split
    · rename_i hc
      simp only [Bool.and_eq_true, Bool.not_eq_true'] at hc
      have hb : pairInside st det.track_id roi.id = false := by
        rw [← hgs, hc.2]
      rw [hb, pairInside_aupdate_self]
      simp [pairTrace, List.filterMap_cons, pairEventKind, mkEvent, altRun]
    · split
      · rename_i hc
        simp only [Bool.and_eq_true] at hc
        have hb : pairInside st det.track_id roi.id = true := by
          rw [← hgs, hc.2]
        rw [hb, pairInside_aupdate_self]
        have htr : ∀ devs, (∀ ev ∈ devs, ev.event_type = "dwell_time") →
            pairTrace det.track_id roi.id devs = [] := by
          intro devs hdevs
          rw [pairTrace, List.filterMap_eq_nil]
          intro ev hev
          unfold pairEventKind
          split
          · rw [hdevs ev hev]
            simp
          · rfl
        rw [htr _ ?_]
        · show some _ = some _
          congr 1
          exact hc.2.symm
        · intro ev hev
          split at hev
          · split at hev
            · rcases List.mem_singleton.mp hev with rfl
              rfl
            · cases hev
          · cases hev
      · split
        · rename_i hc
          simp only [Bool.and_eq_true, Bool.not_eq_true'] at hc
          have hb : pairInside st det.track_id roi.id = true := by
            rw [← hgs, hc.2]
          rw [hb, pairInside_aupdate_self]
          simp [pairTrace, List.filterMap_cons, pairEventKind, mkEvent, altRun]
        · rw [pairInside_aupdate_self, hgs]
          rfl
  · have hne : state_key tid rid ≠ state_key det.track_id roi.id := by
      intro hh
      exact hpair ⟨(congrArg Prod.fst hh).symm, (congrArg Prod.snd hh).symm⟩
    have hfind := stepDetRoi_find_ne K thr now nE det roi st _ hne
    have htrace : pairTrace tid rid (stepDetRoi K thr now nE det roi st).2 = [] := by
      rw [pairTrace, List.filterMap_eq_nil]
      intro ev hev
      obtain ⟨he1, he2⟩ := stepDetRoi_events_shape K thr now nE det roi st ev hev
      refine pairEventKind_none ?_
      rw [he1, he2]
      exact hpair
    rw [htrace]
    show some _ = some _
    congr 1
    unfold pairInside
    rw [hfind]

/-- Threading the alternation invariant through an event-accumulating fold. -/
theorem foldl_alt_aux {α : Type} (f : Store → α → Store × List ROIEvent)
    (tid : Int) (rid : String)
    (hstep : ∀ st a, altRun (pairInside st tid rid) (pairTrace tid rid (f st a).2)
      = some (pairInside (f st a).1 tid rid)) (b₀ : Bool) :
    ∀ (l : List α) (acc : Store × List ROIEvent),
      altRun b₀ (pairTrace tid rid acc.2) = some (pairInside acc.1 tid rid) →
      altRun b₀ (pairTrace tid rid
          ((l.foldl (fun b x => ((f b.1 x).1, b.2 ++ (f b.1 x).2)) acc)).2)
        = some (pairInside
            (l.foldl (fun b x => ((f b.1 x).1, b.2 ++ (f b.1 x).2)) acc).1 tid rid) := by
  intro l
  induction l with
  | nil => intro acc h; exact h
  | cons a t ih =>
      intro acc h
      rw [List.foldl_cons]
      refine ih _ ?_
      show altRun b₀ (pairTrace tid rid (acc.2 ++ (f acc.1 a).2)) = _
      rw [pairTrace, List.filterMap_append, altRun_append]
      rw [show List.filterMap (pairEventKind tid rid) acc.2
        = pairTrace tid rid acc.2 from rfl, h]
      simp only [Option.bind_some]
      exact hstep acc.1 a

theorem procDet_alt (K : GeoKernel) (thr : List (String × ℚ)) (now nE : ℚ)
    (rois : List ROIDefinition) (tid : Int) (rid : String)
    (a : Store × List ROIEvent) (det : Detection) (b₀ : Bool)
    (h : altRun b₀ (pairTrace tid rid a.2) = some (pairInside a.1 tid rid)) :
    altRun b₀ (pairTrace tid rid (procDet K thr now nE rois a det).2)
      = some (pairInside (procDet K thr now nE rois a det).1 tid rid) := by
  unfold procDet
  split
  · exact h
  · exact foldl_alt_aux (fun st roi => stepDetRoi K thr now nE det roi st) tid rid
      (fun st roi => stepDetRoi_alt K thr now nE det roi st tid rid) b₀ rois a h

theorem detphase_alt (K : GeoKernel) (thr : List (String × ℚ)) (now nE : ℚ)
    (rois : List ROIDefinition) (tid : Int) (rid : String) (dets : List Detection) :
    ∀ (acc : Store × List ROIEvent) (b₀ : Bool),
      altRun b₀ (pairTrace tid rid acc.2) = some (pairInside acc.1 tid rid) →
      altRun b₀ (pairTrace tid rid (dets.foldl (procDet K thr now nE rois) acc).2)
        = some (pairInside (dets.foldl (procDet K thr now nE rois) acc).1 tid rid) := by
  induction dets with
  | nil => intro acc b₀ h; exact h
  | cons d t ih =>
      intro acc b₀ h
      rw [List.foldl_cons]
      exact ih _ _ (procDet_alt K thr now nE rois tid rid acc d b₀ h)

theorem pairInside_cons_self {tid : Int} {rid : String} (k : Int × String)
    (s : TrackState) (t : Store) (h : k = state_key tid rid) :
    pairInside ((k, s) :: t) tid rid = s.is_inside := by
  unfold pairInside
  simp only [afind, if_pos h]

theorem pairInside_cons_ne {tid : Int} {rid : String} (k : Int × String)
    (s : TrackState) (t : Store) (h : ¬(k = state_key tid rid)) :
    pairInside ((k, s) :: t) tid rid = pairInside t tid rid := by
  unfold pairInside
  simp only [afind, if_neg h]

/-- The reaper respects the pair's alternation automaton (a lost-Exit fires
only from Inside and leaves the pair Outside; a ROI-less stale entry cannot
occur when every stored ROI id resolves). -/
theorem handle_lost_alt (rois : List (String × ROIDefinition)) (seen : List Int)
    (nowR nE : ℚ) (hreg : RegWF rois) (tid : Int) (rid : String) :
    ∀ st : Store, (st.map Prod.fst).Nodup →
      (∀ p ∈ st, p.1 = (p.2.track_id, p.2.roi_id) ∧
        (afind p.2.roi_id rois).isSome = true) →
      altRun (pairInside st tid rid)
          (pairTrace tid rid (handle_lost_tracks rois seen nowR nE st).2)
        = some (pairInside (handle_lost_tracks rois seen nowR nE st).1 tid rid) := by
  intro st
  induction st with
  | nil =>
      intro _ _
      simp [handle_lost_tracks, pairTrace, pairInside, afind, altRun]
  | cons q t ih =>
      intro hnd h
      obtain ⟨k, s⟩ := q
      simp only [List.map_cons, List.nodup_cons] at hnd
      have hk : k = (s.track_id, s.roi_id) := (h _ (List.mem_cons_self _ _)).1
      have hroiS := (h _ (List.mem_cons_self _ _)).2
      have ht : ∀ p ∈ t, p.1 = (p.2.track_id, p.2.roi_id) ∧
          (afind p.2.roi_id rois).isSome = true :=
        fun p hp => h _ (List.mem_cons_of_mem _ hp)
      have ihres := ih hnd.2 ht
      by_cases hpair : k = state_key tid rid
      · have hnotmem : state_key tid rid ∉ t.map Prod.fst := hpair ▸ hnd.1
        have hpirest : pairInside (handle_lost_tracks rois seen nowR nE t).1 tid rid
            = false := by
          unfold pairInside
          rw [(afind_eq_none_iff _ _).mpr (fun hx => hnotmem
            (List.map_subset Prod.fst
              (handle_lost_sublist rois seen nowR nE t).subset hx))]
        have htrt : pairTrace tid rid
            (handle_lost_tracks rois seen nowR nE t).2 = [] := by
          rw [pairTrace, List.filterMap_eq_nil]
          intro ev hev
          obtain ⟨k₂, s₂, roi₂, hmem₂, _, _, _, hroi₂, heq₂⟩ :=
            handle_lost_events_from rois seen nowR nE t ev hev
          refine pairEventKind_none ?_
          rintro ⟨ha, hb⟩
          apply hnotmem
          have ha' : s₂.track_id = tid := by rw [← ha, heq₂]; rfl
          have hb' : roi₂.id = rid := by rw [← hb, heq₂]; rfl
          have hk₂ : k₂ = state_key tid rid := by
            have hx : k₂ = (s₂.track_id, s₂.roi_id) := (ht _ hmem₂).1
            rw [hx, ha', ← RegWF_afind_id hreg hroi₂, hb']
            rfl
          exact hk₂ ▸ List.mem_map.mpr ⟨(k₂, s₂), hmem₂, rfl⟩
        simp only [handle_lost_tracks]
        split
        · rename_i hins
          rw [pairInside_cons_self k s t hpair, htrt,
            pairInside_cons_self k s _ hpair]
          rfl
        · split
          · rw [pairInside_cons_self k s t hpair, htrt,
              pairInside_cons_self k s _ hpair]
            rfl
          · split
            · rw [pairInside_cons_self k s t hpair, htrt,
                pairInside_cons_self k s _ hpair]
              rfl
            · rename_i hins hseen htol
              have hin : s.is_inside = true := by
                cases hb : s.is_inside
                · exact absurd (by simp [hb]) hins
                · rfl
              split
              · rename_i hroi₀
                rw [hroi₀] at hroiS
                cases hroiS
              · rename_i roi₀ hroi₀
                have hkey2 : (s.track_id, s.roi_id) = state_key tid rid := by
                  rw [← hk]
                  exact hpair
                have hstid : s.track_id = tid := congrArg Prod.fst hkey2
                have hrid0 : roi₀.id = rid := by
                  rw [RegWF_afind_id hreg hroi₀]
                  exact congrArg Prod.snd hkey2
                have hkind : pairEventKind tid rid
                    (mkEvent "roi_exit" roi₀ s.track_id s.confidence s.bbox nE
                      (s.dwell_seconds nowR)) = some false := by
                  simp [pairEventKind, mkEvent, hstid, hrid0]
                rw [pairInside_cons_self k s t hpair, hin]
                show altRun true (pairTrace tid rid (_ :: _)) = _
                rw [pairTrace, List.filterMap_cons, hkind]
                rw [show List.filterMap (pairEventKind tid rid)
                    (handle_lost_tracks rois seen nowR nE t).2
                  = pairTrace tid rid (handle_lost_tracks rois seen nowR nE t).2
                  from rfl, htrt, hpirest]
                rfl
      · have hne : ¬(k = state_key tid rid) := hpair
        simp only [handle_lost_tracks]
        split
        · rw [pairInside_cons_ne k s t hne, pairInside_cons_ne k s _ hne]
          exact ihres
        · split
          · rw [pairInside_cons_ne k s t hne, pairInside_cons_ne k s _ hne]
            exact ihres
          · split
            · rw [pairInside_cons_ne k s t hne, pairInside_cons_ne k s _ hne]
              exact ihres
            · split
              · rw [pairInside_cons_ne k s t hne]
                exact ihres
              · rename_i roi₀ hroi₀
                rw [pairInside_cons_ne k s t hne]
                have hkind : pairEventKind tid rid
                    (mkEvent "roi_exit" roi₀ s.track_id s.confidence s.bbox nE
                      (s.dwell_seconds nowR)) = none := by
                  refine pairEventKind_none ?_
                  rintro ⟨ha, hb⟩
                  apply hne
                  have ha' : s.track_id = tid := ha
                  have hb' : s.roi_id = rid := by
                    rw [← RegWF_afind_id hreg hroi₀]
                    exact hb
                  rw [hk, ha', hb']
                  rfl
                show altRun _ (pairTrace tid rid (_ :: _)) = _
                rw [pairTrace, List.filterMap_cons, hkind]
                exact ihres

/-- One whole `process_detections` call respects the pair's alternation
automaton. -/
theorem process_alt (K : GeoKernel) (eng : Engine) (dets : List Detection)
    (now nowR nE : ℚ) (tid : Int) (rid : String)
    (hreg : RegWF eng.rois) (hswf : StoreWF eng.rois eng.track_states) :
    altRun (pairInside eng.track_states tid rid)
        (pairTrace tid rid (process_detections K eng dets now nowR nE).2)
      = some (pairInside
          (process_detections K eng dets now nowR nE).1.track_states tid rid) := by
  have hactive : ∀ roi ∈ eng.active_rois, (afind roi.id eng.rois).isSome = true :=
    fun roi hroi => RegWF_active_isSome hreg hroi
  have hswf1 := foldl_procDet_swf K eng.dwell_thresholds now nE eng.rois
    eng.active_rois hactive dets (eng.track_states, []) hswf
  have hdet := detphase_alt K eng.dwell_thresholds now nE eng.active_rois tid rid
    dets (eng.track_states, []) (pairInside eng.track_states tid rid) rfl
  have hreap := handle_lost_alt eng.rois (seenTrackIds dets) nowR nE hreg tid rid
    _ hswf1.1 (fun p hp => ⟨(hswf1.2 p hp).1, (hswf1.2 p hp).2.2⟩)
  show altRun _ (pairTrace tid rid
    ((dets.foldl (procDet K eng.dwell_thresholds now nE eng.active_rois)
      (eng.track_states, [])).2 ++ _)) = _
  rw [pairTrace, List.filterMap_append, altRun_append,
    show List.filterMap (pairEventKind tid rid)
        (dets.foldl (procDet K eng.dwell_thresholds now nE eng.active_rois)
          (eng.track_states, [])).2
      = pairTrace tid rid
        (dets.foldl (procDet K eng.dwell_thresholds now nE eng.active_rois)
          (eng.track_states, [])).2 from rfl, hdet]
  exact hreap

/-- A `process_detections` call never touches the zone registry. -/
theorem process_detections_rois (K : GeoKernel) (eng : Engine)
    (dets : List Detection) (now nowR nE : ℚ) :
    (process_detections K eng dets now nowR nE).1.rois = eng.rois := rfl

theorem runCalls_alt (K : GeoKernel) (tid : Int) (rid : String) :
    ∀ (calls : List FrameCall) (eng : Engine), RegWF eng.rois →
      StoreWF eng.rois eng.track_states →
      altRun (pairInside eng.track_states tid rid)
          (pairTrace tid rid (runCalls K eng calls).2)
        = some (pairInside (runCalls K eng calls).1.track_states tid rid) := by
  intro calls
  induction calls with
  | nil =>
      intro eng _ _
      rfl
  | cons c cs ih =>
      intro eng hreg hswf
      have hactive : ∀ roi ∈ eng.active_rois, (afind roi.id eng.rois).isSome = true :=
        fun roi hroi => RegWF_active_isSome hreg hroi
      have hswf1 := foldl_procDet_swf K eng.dwell_thresholds c.now c.now_epoch
        eng.rois eng.active_rois hactive c.dets (eng.track_states, []) hswf
      have hswf2 : StoreWF eng.rois
          (process_detections K eng c.dets c.now c.now_reap c.now_epoch).1.track_states :=
        handle_lost_swf eng.rois (seenTrackIds c.dets) c.now_reap c.now_epoch _ hswf1
      have hcall := process_alt K eng c.dets c.now c.now_reap c.now_epoch tid rid
        hreg hswf
      have hrest := ih (process_detections K eng c.dets c.now c.now_reap c.now_epoch).1
        hreg hswf2
      show altRun _ (pairTrace tid rid
        ((process_detections K eng c.dets c.now c.now_reap c.now_epoch).2 ++ _)) = _
      rw [pairTrace, List.filterMap_append, altRun_append,
        show List.filterMap (pairEventKind tid rid)
            (process_detections K eng c.dets c.now c.now_reap c.now_epoch).2
          = pairTrace tid rid
            (process_detections K eng c.dets c.now c.now_reap c.now_epoch).2
          from rfl, hcall]
      exact hrest

/-- C1: over any sequence of `process_detections` calls on a single engine
whose track-state store starts empty (and whose registry is wellformed, as
`add_roi`/`load_from_file` guarantee), the concatenated event stream
projected to any (object, zone) pair's Enter/Exit events is a strict
alternation starting from Outside: an Exit — explicit or lost — is emitted
only after a preceding unmatched Enter since the last Exit, and no two
Enters occur without an intervening Exit.  (`altRun false … = some b`
states exactly this and that the final inside-flag of the pair matches the
store.) -/
theorem C1_enter_exit_pairing (K : GeoKernel) (eng : Engine)
    (calls : List FrameCall) (tid : Int) (rid : String)
    (hreg : RegWF eng.rois) (hempty : eng.track_states = []) :
    altRun false (pairTrace tid rid (runCalls K eng calls).2)
      = some (pairInside (runCalls K eng calls).1.track_states tid rid) := by
  have hswf : StoreWF eng.rois eng.track_states := by
    rw [hempty]
    exact ⟨List.nodup_nil, by simp⟩
  have h := runCalls_alt K tid rid calls eng hreg hswf
  rw [hempty] at h
  exact h

/-- Witness for C1 on the three-frame run of `engC3` (tracker 7 enters `Z1`
and stays; the pair ends Inside). -/
theorem C1_witness :
    altRun false (pairTrace 7 "Z1" (runCalls stdKernel engC3 callsC3).2)
      = some (pairInside (runCalls stdKernel engC3 callsC3).1.track_states 7 "Z1") :=
  C1_enter_exit_pairing stdKernel engC3 callsC3 7 "Z1"
    ⟨by decide, by decide⟩ rfl

end LogisticsTrack
